import Mathlib

/-!
The program `simple_shell`: a verification development.

A shallow embedding of `simple_shell.c` and theorems about it.

Modelling conventions.

* A C string is the list of its characters before the terminator (`CStr`); such a list
  holds no NUL character.  The memory that stores it is the list followed by `NUL` (`cmem`).
* A `char *` into a buffer is an offset (`Nat`); `NULL` is `none`.
* `strtok` and `strcpy` work on the bytes of the buffer, as in C: `strtok` overwrites the
  delimiter after a token with `NUL`, and tokens are offsets into the buffer.
* Loops of the C code are recursive functions with fuel; the theorems show the fuel
  given by the callers is enough.
* `malloc` and `realloc` are taken to succeed.
* Integer widths are those of LP64 Linux (`long` 64 bits, `int` 32 bits).
-/

namespace SimpleShell

/-- A C string: its characters before the terminator. -/
abbrev CStr := List Char

/-- The string terminator. -/
def NUL : Char := Char.ofNat 0

/-- The bytes that store the C string `s`: its characters, then the terminator. -/
def cmem (s : CStr) : List Char := s ++ [NUL]

/-- The C string read at offset `p` of `mem`: the bytes from `p` up to the first `NUL`. -/
def cstrAt (mem : List Char) (p : Nat) : CStr :=
  (mem.drop p).takeWhile (fun c => c != NUL)

/-- The libc `strspn(mem + p, accept)`: length of the initial run of bytes in `accept`. -/
def strspn (mem : List Char) (p : Nat) (accept : List Char) : Nat :=
  ((mem.drop p).takeWhile (fun c => c != NUL && accept.contains c)).length

/-- The libc `strcspn(mem + p, reject)`: length of the initial run of bytes not in `reject`. -/
def strcspn (mem : List Char) (p : Nat) (reject : List Char) : Nat :=
  ((mem.drop p).takeWhile (fun c => c != NUL && !reject.contains c)).length

/-- What one call of `strtok` leaves: the token pointer it returns (`none` for `NULL`),
the buffer, and the saved position for the next call. -/
structure StrtokResult where
  token : Option Nat
  mem : List Char
  save : Nat
deriving DecidableEq, Repr

/-- The libc `strtok` scanning from offset `p` (the string passed in the first call, the saved
position in the calls with `NULL`): skip delimiters; at the terminator return `NULL`;
otherwise the token runs to the next delimiter, which is overwritten with `NUL`. -/
def strtok (mem : List Char) (p : Nat) (delim : List Char) : StrtokResult :=
  let s := p + strspn mem p delim
  if mem.getD s NUL == NUL then ⟨none, mem, s⟩
  else
    let e := s + strcspn mem s delim
    if mem.getD e NUL == NUL then ⟨some s, mem, e⟩
    else ⟨some s, mem.set e NUL, e + 1⟩

/-- Result of running a piece of the program. -/
inductive Res (α : Type) where
  /-- the code ran to its end and produced `a` -/
  | ok (a : α)
  /-- the code did something C leaves undefined (NULL dereference, write out of bounds) -/
  | undefined
  /-- the fuel of the model ran out -/
  | timeout
deriving DecidableEq, Repr

/-- The constant `BUFSIZE`. -/
def BUFSIZE : Nat := 64

/-- The constant `ARG_DELIM`, the characters of `" \t\r\n\a"`. -/
def ARG_DELIM : List Char := [' ', '\t', '\r', '\n', Char.ofNat 7]

/-- State of a tokenizing loop: the buffer, the pointers stored so far (slots `0 .. index-1`,
so that `index` is the length of `args`), and the capacity of the pointer array. -/
structure TokState where
  mem : List Char
  args : List Nat
  bufsize : Nat
deriving DecidableEq, Repr

/-- The loop `while (arg != NULL)` with the body `args[index] = arg; index++;`, the growth
step, and `arg = strtok(NULL, delim);`.  It is shared by `split_line` (`grow = true`:
`if (index >= bufsize) bufsize += BUFSIZE` with `realloc`) and `builtin_proc` (`grow = false`:
no growth).  A store `args[index] = arg` with `index >= bufsize` is out of bounds. -/
def tok_loop (delim : List Char) (grow : Bool) :
    Nat → Option Nat → Nat → TokState → Res TokState
  | _, none, _, st => .ok st
  | 0, some _, _, _ => .timeout
  | fuel + 1, some a, save, st =>
    if st.args.length < st.bufsize then
      let args := st.args ++ [a]
      let bufsize := if grow && decide (args.length ≥ st.bufsize) then st.bufsize + BUFSIZE
        else st.bufsize
      let r := strtok st.mem save delim
      tok_loop delim grow fuel r.token r.save ⟨r.mem, args, bufsize⟩
    else .undefined

/-- Tokenizing of the string at offset 0 of `mem`: the first `strtok(str, delim)`, the loop, and
the final store `args[index] = NULL`, which needs `index < bufsize` as well. -/
def tokenize (delim : List Char) (grow : Bool) (mem : List Char) : Res TokState :=
  let r := strtok mem 0 delim
  match tok_loop delim grow mem.length r.token r.save ⟨r.mem, [], BUFSIZE⟩ with
  | .ok st => if st.args.length < st.bufsize then .ok st else .undefined
  | .undefined => .undefined
  | .timeout => .timeout

/-- The libc `strcpy(mem + p, src)`: writes the characters of `src` and a terminator at offset
`p`.  The buffer is only known to hold `mem.length` bytes; a write past them is out of bounds
(`none`). -/
def strcpy_at (mem : List Char) (p : Nat) (src : CStr) : Option (List Char) :=
  if p + src.length + 1 ≤ mem.length then
    some (mem.take p ++ src ++ [NUL] ++ mem.drop (p + src.length + 1))
  else none

/-- The loop `for (i = 1; i < args_len; i++)` of `split_line` over the pointers `args[1..]`:
`unescape(args[i])`, and on a non-NULL answer `strcpy(args[i], answer)`.  The function
`unescape` of `utils.h` is a parameter. -/
def unescape_loop (unescape : CStr → Option CStr) : List Nat → List Char → Option (List Char)
  | [], mem => some mem
  | p :: ps, mem =>
    match unescape (cstrAt mem p) with
    | none => unescape_loop unescape ps mem
    | some r =>
      match strcpy_at mem p r with
      | none => none
      | some mem1 => unescape_loop unescape ps mem1

/-- The command name that switches the unescaping on. -/
def ECHO : CStr := ['e', 'c', 'h', 'o']

/-- The function `split_line`: tokenizes the line in place with `strtok` and `ARG_DELIM`, growing
the pointer array by `BUFSIZE`; then `strcmp(args[0], "echo")`, which dereferences `NULL` when
there is no token; for `echo` the arguments are unescaped in place.  The result is the
NULL-terminated array it returns, as the list of the strings its pointers point to. -/
def split_line (unescape : CStr → Option CStr) (line : CStr) : Res (List CStr) :=
  match tokenize ARG_DELIM true (cmem line) with
  | .ok st =>
    match st.args with
    | [] => .undefined
    | p0 :: ps =>
      if cstrAt st.mem p0 == ECHO then
        match unescape_loop unescape ps st.mem with
        | none => .undefined
        | some mem => .ok ((p0 :: ps).map (cstrAt mem))
      else .ok ((p0 :: ps).map (cstrAt st.mem))
  | .undefined => .undefined
  | .timeout => .timeout

/-- The libc `isspace` in the C locale: space, `\t`, `\n`, `\v`, `\f`, `\r`. -/
def isspace (c : Char) : Bool :=
  c == ' ' || c == '\t' || c == '\n' || c == Char.ofNat 11 || c == Char.ofNat 12 || c == '\r'

/-- The function `is_empty`: 1 (`true`) when every character up to the terminator is a space. -/
def is_empty : CStr → Bool
  | [] => true
  | c :: cs => if !isspace c then false else is_empty cs

/-- A status reported by `waitpid(pid, &status, WUNTRACED)`. -/
inductive WaitStatus where
  | stopped (sig : Nat)
  | exited (code : Nat)
  | signaled (sig : Nat)
deriving DecidableEq, Repr

/-- What the program does that can be seen from outside, one constructor per call site. -/
inductive Event where
  /-- the call `printf("$ ")` in `shell_loop` -/
  | prompt
  /-- the call `free(input)` before `exit(1)` in `shell_loop` -/
  | freeInput
  /-- the call `clean_mem(input, args)` -/
  | cleanMem
  /-- the `perror` of `builtin_proc_err` -/
  | procUsage
  /-- the call `print_to_stdout(path)` -/
  | dumpFile (path : CStr)
  /-- the message "Files supported by proc are ..." -/
  | unsupportedFile
  /-- the message "Too many arguments for <exit> command!" -/
  | tooManyArguments
  /-- the call of `perror` after a failed `fork` -/
  | forkError
  /-- a successful `fork`, whose child calls `execvp(args[0], args)` -/
  | spawn (args : List CStr)
  /-- the status on which the `waitpid` loop ended -/
  | waited (status : WaitStatus)
  /-- the message of `main` when it is given arguments -/
  | mainUsage
deriving DecidableEq, Repr

/-- How a function of the program ends. -/
inductive Result where
  /-- it returns `v` -/
  | ret (v : Int)
  /-- it calls `exit(status)` -/
  | exit (status : Int)
  /-- undefined behaviour in C -/
  | undefined
  /-- it never returns: `waitpid` never reports a terminal state -/
  | blocked
  /-- the fuel of the model ran out -/
  | timeout
deriving DecidableEq, Repr

/-- A run of a command handler: what it did, how it ended, and the strings of the argument
vector as they read afterwards (handlers get pointers into the line and may write to it). -/
structure Outcome where
  trace : List Event
  result : Result
  args : List CStr
deriving DecidableEq, Repr

/-- Largest `long`. -/
def LONG_MAX : Int := 2 ^ 63 - 1

/-- Smallest `long`. -/
def LONG_MIN : Int := -(2 ^ 63)

/-- Value of a run of decimal digits. -/
def digits_value (ds : List Char) : Int :=
  ds.foldl (fun acc c => 10 * acc + ((c.toNat - 48 : Nat) : Int)) 0

/-- The libc `strtol(s, &end, 10)`: skips leading white space, takes an optional sign, then the
longest run of digits.  Without a digit nothing is converted: the value is 0 and `end` is `s`.
Otherwise the value is clamped to the range of `long` and `end` is what follows the digits.
Returns the value and the string at `end`. -/
def strtol (s : CStr) : Int × CStr :=
  let s1 := s.dropWhile isspace
  let neg := s1.head? == some '-'
  let s2 := match s1 with
    | c :: t => if c == '-' || c == '+' then t else s1
    | [] => []
  let ds := s2.takeWhile Char.isDigit
  if ds.isEmpty then (0, s)
  else
    let v := if neg then -(digits_value ds) else digits_value ds
    (max LONG_MIN (min LONG_MAX v), s2.dropWhile Char.isDigit)

/-- Conversion of a `long` to the `int` parameter of `exit`: reduction modulo `2^32` into the
range of `int`. -/
def long_to_int (v : Int) : Int := (v + 2 ^ 31) % 2 ^ 32 - 2 ^ 31

/-- The function `builtin_exit`: counts the arguments; more than two give the message and 1;
with two, `strtol` on `args[1]`, and `*end != 0` gives 1, else `clean_mem` and `exit(status)`;
otherwise 0. -/
def builtin_exit (args : List CStr) : Outcome :=
  if args.length > 2 then ⟨[.tooManyArguments], .ret 1, args⟩
  else if args.length = 2 then
    let r := strtol (args.getD 1 [])
    if r.2 ≠ [] then ⟨[], .ret 1, args⟩
    else ⟨[.cleanMem], .exit (long_to_int r.1), args⟩
  else ⟨[], .ret 0, args⟩

/-- The constant `PATH_SIZE`. -/
def PATH_SIZE : Nat := 64

/-- The array `required_files` (`REQ_FILES_PROC` = 4 entries). -/
def required_files : List CStr :=
  [['c', 'p', 'u', 'i', 'n', 'f', 'o'], ['l', 'o', 'a', 'd', 'a', 'v', 'g'],
   ['f', 'i', 'l', 'e', 's', 'y', 's', 't', 'e', 'm', 's'], ['m', 'o', 'u', 'n', 't', 's']]

/-- The string `"/proc/"`. -/
def PROC_ROOT : CStr := ['/', 'p', 'r', 'o', 'c', '/']

/-- The call `strcpy(file_path, src)` for `char file_path[PATH_SIZE]`: `none` when `src` and its
terminator do not fit. -/
def path_strcpy (src : CStr) : Option CStr :=
  if src.length + 1 ≤ PATH_SIZE then some src else none

/-- The call `strcat(file_path, src)` for `char file_path[PATH_SIZE]` holding `buf`: `none`
when `src` is `NULL` or the result and its terminator do not fit. -/
def path_strcat (buf : CStr) (src : Option CStr) : Option CStr :=
  match src with
  | none => none
  | some s => if buf.length + s.length + 1 ≤ PATH_SIZE then some (buf ++ s) else none

/-- The function `builtin_proc_err`: reports the usage of `proc` with `perror` and returns 1. -/
def builtin_proc_err (args : List CStr) : Outcome := ⟨[.procUsage], .ret 1, args⟩

/-- The function `builtin_proc`.  With other than two arguments it returns `builtin_proc_err()`.
If `args[1]` holds a `/`, it is split in place by `strtok` on `/` into `tokens` (a fixed array
of `BUFSIZE` pointers), and the path is built in `file_path` from `tokens[0]` and `tokens[1]`,
either of which is `NULL` when there are too few tokens.  Otherwise `args[1]` is compared with
the entries of `required_files`. -/
def builtin_proc (args : List CStr) : Outcome :=
  if args.length ≠ 2 then builtin_proc_err args
  else
    let a0 := args.getD 0 []
    let a1 := args.getD 1 []
    if a1.any (fun c => c == '/') then
      match tokenize ['/'] false (cmem a1) with
      | .ok st =>
        let tokens := fun i => (st.args.get? i).map (cstrAt st.mem)
        let args1 := [a0, cstrAt st.mem 0]
        match ((path_strcpy PROC_ROOT).bind (fun b => path_strcat b (tokens 0))).bind
            (fun b => (path_strcat b (some ['/'])).bind (fun b => path_strcat b (tokens 1))) with
        | some file_path => ⟨[.dumpFile file_path], .ret 1, args1⟩
        | none => ⟨[], .undefined, args1⟩
      | .undefined => ⟨[], .undefined, args⟩
      | .timeout => ⟨[], .timeout, args⟩
    else if required_files.any (fun f => a1 == f) then
      match (path_strcpy PROC_ROOT).bind (fun b => path_strcat b (some a1)) with
      | some file_path => ⟨[.dumpFile file_path], .ret 1, args⟩
      | none => ⟨[], .undefined, args⟩
    else ⟨[.unsupportedFile], .ret 1, args⟩

/-- The macro `WIFEXITED`. -/
def WIFEXITED : WaitStatus → Bool
  | .exited _ => true
  | _ => false

/-- The macro `WIFSIGNALED`. -/
def WIFSIGNALED : WaitStatus → Bool
  | .signaled _ => true
  | _ => false

/-- What `fork` and the later calls of `waitpid` give the parent: `fork` fails, or it succeeds
and `waitpid` reports the listed statuses, one per call, and then never returns again. -/
inductive Spawn where
  | forkFails
  | forked (statuses : List WaitStatus)
deriving DecidableEq, Repr

/-- The loop `do { waitpid(...); } while (!WIFEXITED(status) && !WIFSIGNALED(status));`:
the status it ends on, `none` when it never ends. -/
def wait_loop : List WaitStatus → Option WaitStatus
  | [] => none
  | s :: rest => if !WIFEXITED s && !WIFSIGNALED s then wait_loop rest else some s

/-- The function `execute`, seen from the parent: after a failed `fork` it reports and returns
1; after a successful one the child runs `execvp(args[0], args)` and the parent waits in
`wait_loop`, then returns 1. -/
def execute (args : List CStr) (w : Spawn) : Outcome :=
  match w with
  | .forkFails => ⟨[.forkError], .ret 1, args⟩
  | .forked statuses =>
    match wait_loop statuses with
    | none => ⟨[.spawn args], .blocked, args⟩
    | some s => ⟨[.spawn args, .waited s], .ret 1, args⟩

/-- The array `builtin_arr`. -/
def builtin_arr : List CStr := [['e', 'x', 'i', 't'], ['p', 'r', 'o', 'c']]

/-- The array `builtin_func`. -/
def builtin_func : List (List CStr → Outcome) := [builtin_exit, builtin_proc]

/-- The loop of `load` over the builtin table from entry `i` on: the first entry whose name
`strcmp` finds equal to `args[0]` handles the command. -/
def load_loop (a0 : CStr) (args : List CStr) :
    List (CStr × (List CStr → Outcome)) → Option Outcome
  | [] => none
  | (name, f) :: rest => if a0 == name then some (f args) else load_loop a0 args rest

/-- The function `load`: `strcmp(args[0], ...)` against the builtin table (a `NULL` dereference
when the vector is empty), the matching builtin, else `execute(args)`. -/
def load (args : List CStr) (w : Spawn) : Outcome :=
  match args with
  | [] => ⟨[], .undefined, args⟩
  | a0 :: _ =>
    match load_loop a0 args (builtin_arr.zip builtin_func) with
    | some o => o
    | none => execute args w

/-- How `shell_loop` or the whole program ends. -/
inductive Final where
  /-- the function `shell_loop` returns to `main` -/
  | returned
  /-- the process ends with `exit(status)` or `main` returning `status` -/
  | exit (status : Int)
  /-- undefined behaviour in C -/
  | undefined
  /-- blocked for ever in `waitpid` -/
  | blocked
  /-- the model has no further input line to give to `read_line` -/
  | endOfInput
  /-- the fuel of the model ran out -/
  | timeout
deriving DecidableEq, Repr

/-- The function `shell_loop` on the lines `read_line` returns, each with what `fork` and
`waitpid` will do if the line spawns a command: prompt, read, `exit(1)` on a blank line, else
`split_line`, `load`, `clean_mem`, and again while the status is not 0. -/
def shell_loop (unescape : CStr → Option CStr) : List (CStr × Spawn) → List Event × Final
  | [] => ([.prompt], .endOfInput)
  | (input, w) :: rest =>
    if is_empty input then ([.prompt, .freeInput], .exit 1)
    else
      match split_line unescape input with
      | .undefined => ([.prompt], .undefined)
      | .timeout => ([.prompt], .timeout)
      | .ok args =>
        let o := load args w
        match o.result with
        | .ret status =>
          if status ≠ 0 then
            let r := shell_loop unescape rest
            (.prompt :: o.trace ++ .cleanMem :: r.1, r.2)
          else (.prompt :: o.trace ++ [.cleanMem], .returned)
        | .exit status => (.prompt :: o.trace, .exit status)
        | .undefined => (.prompt :: o.trace, .undefined)
        | .blocked => (.prompt :: o.trace, .blocked)
        | .timeout => (.prompt :: o.trace, .timeout)

/-- The function `main`: with arguments it reports and returns 1; else `shell_loop()` and
`return 0`. -/
def main (unescape : CStr → Option CStr) (argc : Nat) (inputs : List (CStr × Spawn)) :
    List Event × Final :=
  if argc > 1 then ([.mainUsage], .exit 1)
  else
    match shell_loop unescape inputs with
    | (tr, .returned) => (tr, .exit 0)
    | r => r

/-- Largest `int`. -/
def INT_MAX : Int := 2 ^ 31 - 1

/-- Smallest `int`. -/
def INT_MIN : Int := -(2 ^ 31)

/-- Specification side, not from the source: a base-10 integer literal in its entirety, that
is an optional sign, then digits only, at least one; its value. -/
def int_literal (a : CStr) : Option Int :=
  match a with
  | [] => none
  | c :: t =>
    if c = '-' then
      (if t ≠ [] ∧ t.all Char.isDigit then some (-(digits_value t)) else none)
    else if c = '+' then
      (if t ≠ [] ∧ t.all Char.isDigit then some (digits_value t) else none)
    else
      (if (c :: t).all Char.isDigit then some (digits_value (c :: t)) else none)

/-- Specification side, not from the source: the maximal runs of characters of `s` that hold
no character of `delim`, in order of appearance, that is the pieces of `s` between delimiters,
the empty pieces left out. -/
def maximal_runs (delim : List Char) (s : CStr) : List CStr :=
  (s.splitOnP (fun c => delim.contains c)).filter (fun t => !t.isEmpty)

/-- Specification side, not from the source: the line made of leading characters `lead` and
then each token followed by its separator. -/
def join_tokens (lead : List Char) (ps : List (CStr × List Char)) : CStr :=
  lead ++ (ps.map (fun p => p.1 ++ p.2)).flatten

/-- Auxiliary to the proofs: the bytes of a tokenized stretch of buffer, each token after the
gap before it and followed by a terminator. -/
def layout : List (List Char × CStr) → List Char
  | [] => []
  | (gap, tok) :: rest => gap ++ tok ++ NUL :: layout rest

/-- Auxiliary to the proofs: the offsets of the tokens of `layout`, the stretch starting at
offset `base`. -/
def layout_ptrs : Nat → List (List Char × CStr) → List Nat
  | _, [] => []
  | base, (gap, tok) :: rest =>
    (base + gap.length) :: layout_ptrs (base + gap.length + tok.length + 1) rest

/-- Auxiliary to the proofs: capacity of the pointer array after `k` more stores, starting with
`len` stored pointers and capacity `bufsize`; `none` when a store is out of bounds. -/
def run_buf (grow : Bool) : Nat → Nat → Nat → Option Nat
  | 0, _, bufsize => some bufsize
  | k + 1, len, bufsize =>
    if len < bufsize then
      run_buf grow k (len + 1)
        (if grow && decide (len + 1 ≥ bufsize) then bufsize + BUFSIZE else bufsize)
    else none

/-! ## Lists -/

theorem takeWhile_append_stop {q p : Char → Bool} (l t : List Char) (z : Char)
    (h : ∀ c ∈ l, q c = p c) (hz : q z = false) :
    (l ++ z :: t).takeWhile q = l.takeWhile p := by
  induction l with
  | nil => simp [List.takeWhile, hz]
  | cons a l ih =>
    have ha : q a = p a := h a (by simp)
    have ih1 := ih (fun c hc => h c (by simp [hc]))
    simp only [List.cons_append, List.takeWhile_cons, ha, ih1]

theorem takeWhile_all {p : Char → Bool} (l : List Char) (h : ∀ c ∈ l, p c = true) :
    l.takeWhile p = l := by
  induction l with
  | nil => rfl
  | cons a l ih =>
    simp only [List.takeWhile_cons, h a (by simp), if_true, ih (fun c hc => h c (by simp [hc]))]

theorem getD_append_at (a b : List Char) (c x : Char) : (a ++ c :: b).getD a.length x = c := by
  induction a with
  | nil => rfl
  | cons h a ih => simpa [List.getD_cons_succ] using ih

theorem set_append_at (a b : List Char) (c y : Char) :
    (a ++ c :: b).set a.length y = a ++ y :: b := by
  induction a with
  | nil => rfl
  | cons h a ih => simp [ih]


/-- Reading the string stored at the end of `a`, when a terminator follows it. -/
theorem cstrAt_append (a t b : List Char) (ht : ∀ c ∈ t, c ≠ NUL) :
    cstrAt (a ++ t ++ NUL :: b) a.length = t := by
  unfold cstrAt
  rw [List.append_assoc, List.drop_left]
  rw [takeWhile_append_stop (p := fun c => c != NUL) t b NUL (fun _ _ => rfl) (by simp)]
  exact takeWhile_all t (fun c hc => by simpa using ht c hc)

/-! ## One call of `strtok` on a buffer `done ++ rest ++ [NUL]` at offset `done.length` -/

theorem strspn_run (delim done sk : List Char) (z : Char) (t : List Char)
    (hsk : ∀ c ∈ sk, c ∈ delim ∧ c ≠ NUL) (hz : z = NUL ∨ z ∉ delim) :
    strspn (done ++ sk ++ z :: t) done.length delim = sk.length := by
  unfold strspn
  rw [List.append_assoc, List.drop_left]
  rw [takeWhile_append_stop (p := fun _ => true) sk t z]
  · rw [takeWhile_all sk (fun _ _ => rfl)]
  · intro c hc
    have := hsk c hc
    simp [this.1, this.2]
  · rcases hz with h | h <;> simp [h]

theorem strcspn_run (delim done tok : List Char) (z : Char) (t : List Char)
    (htok : ∀ c ∈ tok, c ∉ delim ∧ c ≠ NUL) (hz : z = NUL ∨ z ∈ delim) :
    strcspn (done ++ tok ++ z :: t) done.length delim = tok.length := by
  unfold strcspn
  rw [List.append_assoc, List.drop_left]
  rw [takeWhile_append_stop (p := fun _ => true) tok t z]
  · rw [takeWhile_all tok (fun _ _ => rfl)]
  · intro c hc
    have := htok c hc
    simp [this.1, this.2]
  · rcases hz with h | h <;> simp [h]

/-- At the end of the string, after delimiters only, `strtok` returns `NULL`. -/
theorem strtok_none (delim done sk : List Char) (hsk : ∀ c ∈ sk, c ∈ delim ∧ c ≠ NUL) :
    strtok (done ++ sk ++ [NUL]) done.length delim
      = ⟨none, done ++ sk ++ [NUL], (done ++ sk).length⟩ := by
  unfold strtok
  have h1 := strspn_run delim done sk NUL [] hsk (Or.inl rfl)
  have h2 : (done ++ sk ++ [NUL]).getD (done ++ sk).length NUL = NUL :=
    getD_append_at (done ++ sk) [] NUL NUL
  simp only [h1]
  rw [show done.length + sk.length = (done ++ sk).length by simp, h2]
  simp

/-- The last token, which runs to the terminator: the buffer is not written. -/
theorem strtok_last (delim done sk tok : List Char) (hsk : ∀ c ∈ sk, c ∈ delim ∧ c ≠ NUL)
    (htok : ∀ c ∈ tok, c ∉ delim ∧ c ≠ NUL) (hne : tok ≠ []) :
    strtok (done ++ sk ++ tok ++ [NUL]) done.length delim
      = ⟨some (done ++ sk).length, done ++ sk ++ tok ++ [NUL], (done ++ sk ++ tok).length⟩ := by
  obtain ⟨a, tl, rfl⟩ := List.exists_cons_of_ne_nil hne
  have ha := htok a (by simp)
  unfold strtok
  have h1 : strspn (done ++ sk ++ (a :: tl) ++ [NUL]) done.length delim = sk.length := by
    rw [show done ++ sk ++ (a :: tl) ++ [NUL] = done ++ sk ++ a :: (tl ++ [NUL]) by simp]
    exact strspn_run delim done sk a _ hsk (Or.inr ha.1)
  have h2 : (done ++ sk ++ (a :: tl) ++ [NUL]).getD (done ++ sk).length NUL = a := by
    rw [show done ++ sk ++ (a :: tl) ++ [NUL] = (done ++ sk) ++ a :: (tl ++ [NUL]) by simp]
    exact getD_append_at _ _ _ _
  have h3 : strcspn (done ++ sk ++ (a :: tl) ++ [NUL]) (done ++ sk).length delim
      = (a :: tl).length :=
    strcspn_run delim (done ++ sk) (a :: tl) NUL [] htok (Or.inl rfl)
  have h4 : (done ++ sk ++ (a :: tl) ++ [NUL]).getD (done ++ sk ++ (a :: tl)).length NUL = NUL :=
    getD_append_at _ [] NUL NUL
  simp only [h1]
  rw [show done.length + sk.length = (done ++ sk).length by simp, h2, h3]
  rw [show (done ++ sk).length + (a :: tl).length = (done ++ sk ++ (a :: tl)).length by simp; omega, h4]
  simp [ha.2]

/-- A token followed by a delimiter: the delimiter is overwritten with the terminator and the
next call starts after it. -/
theorem strtok_mid (delim done sk tok : List Char) (d : Char) (r : List Char)
    (hsk : ∀ c ∈ sk, c ∈ delim ∧ c ≠ NUL)
    (htok : ∀ c ∈ tok, c ∉ delim ∧ c ≠ NUL) (hne : tok ≠ []) (hd : d ∈ delim ∧ d ≠ NUL) :
    strtok (done ++ sk ++ tok ++ d :: r) done.length delim
      = ⟨some (done ++ sk).length, done ++ sk ++ tok ++ NUL :: r,
          (done ++ sk ++ tok ++ [NUL]).length⟩ := by
  obtain ⟨a, tl, rfl⟩ := List.exists_cons_of_ne_nil hne
  have ha := htok a (by simp)
  unfold strtok
  have h1 : strspn (done ++ sk ++ (a :: tl) ++ d :: r) done.length delim = sk.length := by
    rw [show done ++ sk ++ (a :: tl) ++ d :: r = done ++ sk ++ a :: (tl ++ d :: r) by simp]
    exact strspn_run delim done sk a _ hsk (Or.inr ha.1)
  have h2 : (done ++ sk ++ (a :: tl) ++ d :: r).getD (done ++ sk).length NUL = a := by
    rw [show done ++ sk ++ (a :: tl) ++ d :: r = (done ++ sk) ++ a :: (tl ++ d :: r) by simp]
    exact getD_append_at _ _ _ _
  have h3 : strcspn (done ++ sk ++ (a :: tl) ++ d :: r) (done ++ sk).length delim
      = (a :: tl).length :=
    strcspn_run delim (done ++ sk) (a :: tl) d r htok (Or.inr hd.1)
  have h4 : (done ++ sk ++ (a :: tl) ++ d :: r).getD (done ++ sk ++ (a :: tl)).length NUL = d :=
    getD_append_at _ _ _ _
  have h5 : (done ++ sk ++ (a :: tl) ++ d :: r).set (done ++ sk ++ (a :: tl)).length NUL
      = done ++ sk ++ (a :: tl) ++ NUL :: r := set_append_at _ _ _ _
  simp only [h1]
  rw [show done.length + sk.length = (done ++ sk).length by simp, h2, h3]
  rw [show (done ++ sk).length + (a :: tl).length = (done ++ sk ++ (a :: tl)).length by simp; omega,
    h4, h5]
  simp [ha.2, hd.2]
  omega

/-! ## Shapes of a string with respect to a delimiter set -/

/-- A string is only delimiters, or ends in a token, or has a first token followed by a
delimiter. -/
theorem token_shape (delim : List Char) (rest : List Char) :
    (∀ c ∈ rest, c ∈ delim) ∨
    (∃ sk tok, rest = sk ++ tok ∧ (∀ c ∈ sk, c ∈ delim) ∧ tok ≠ [] ∧ (∀ c ∈ tok, c ∉ delim)) ∨
    (∃ sk tok d r, rest = sk ++ tok ++ d :: r ∧ (∀ c ∈ sk, c ∈ delim) ∧ tok ≠ [] ∧
      (∀ c ∈ tok, c ∉ delim) ∧ d ∈ delim) := by
  have h1 := List.takeWhile_append_dropWhile (fun c => decide (c ∈ delim)) rest
  have hsk : ∀ c ∈ rest.takeWhile (fun c => decide (c ∈ delim)), c ∈ delim := by
    intro c hc
    simpa using List.mem_takeWhile_imp hc
  cases hs1 : rest.dropWhile (fun c => decide (c ∈ delim)) with
  | nil =>
    left
    rw [hs1, List.append_nil] at h1
    rw [← h1]
    exact hsk
  | cons a s1 =>
    right
    have ha : a ∉ delim := by
      have := List.head_dropWhile_not (fun c => decide (c ∈ delim)) rest
        (by rw [hs1]; exact List.cons_ne_nil _ _)
      simpa [hs1] using this
    have h2 := List.takeWhile_append_dropWhile (fun c => decide (c ∉ delim)) (a :: s1)
    have htok : ∀ c ∈ (a :: s1).takeWhile (fun c => decide (c ∉ delim)), c ∉ delim := by
      intro c hc
      simpa using List.mem_takeWhile_imp hc
    have hne : (a :: s1).takeWhile (fun c => decide (c ∉ delim)) ≠ [] := by
      simp [List.takeWhile_cons, ha]
    cases hs2 : (a :: s1).dropWhile (fun c => decide (c ∉ delim)) with
    | nil =>
      left
      refine ⟨_, _, ?_, hsk, hne, htok⟩
      rw [hs2, List.append_nil] at h2
      rw [h2, ← hs1, h1]
    | cons d r =>
      right
      have hd : d ∈ delim := by
        have := List.head_dropWhile_not (fun c => decide (c ∉ delim)) (a :: s1)
          (by rw [hs2]; exact List.cons_ne_nil _ _)
        simp only [hs2, List.head_cons] at this
        simpa using this
      refine ⟨_, _, d, r, ?_, hsk, hne, htok, hd⟩
      rw [List.append_assoc, ← hs2, h2, ← hs1, h1]

theorem maximal_runs_nil (delim : List Char) : maximal_runs delim [] = [] := by
  simp [maximal_runs, List.splitOnP_nil]

theorem maximal_runs_skip (delim : List Char) (sk x : List Char) (hsk : ∀ c ∈ sk, c ∈ delim) :
    maximal_runs delim (sk ++ x) = maximal_runs delim x := by
  induction sk with
  | nil => rfl
  | cons a sk ih =>
    have ha : a ∈ delim := hsk a (by simp)
    have := ih (fun c hc => hsk c (by simp [hc]))
    unfold maximal_runs at this ⊢
    rw [List.cons_append, List.splitOnP_cons]
    simp only [List.contains_iff_exists_mem_beq, beq_iff_eq, exists_eq_right', ha, if_true]
    simpa using this

theorem maximal_runs_last (delim : List Char) (tok : List Char) (hne : tok ≠ [])
    (htok : ∀ c ∈ tok, c ∉ delim) : maximal_runs delim tok = [tok] := by
  unfold maximal_runs
  rw [List.splitOnP_eq_single]
  · simp [hne]
  · intro c hc
    simpa using htok c hc

theorem maximal_runs_mid (delim : List Char) (tok : List Char) (d : Char) (r : List Char)
    (hne : tok ≠ []) (htok : ∀ c ∈ tok, c ∉ delim) (hd : d ∈ delim) :
    maximal_runs delim (tok ++ d :: r) = tok :: maximal_runs delim r := by
  unfold maximal_runs
  rw [List.splitOnP_first]
  · simp [hne]
  · intro c hc
    simpa using htok c hc
  · simpa using hd

theorem maximal_runs_all_delim (delim : List Char) (sk : List Char) (hsk : ∀ c ∈ sk, c ∈ delim) :
    maximal_runs delim sk = [] := by
  have := maximal_runs_skip delim sk [] hsk
  rwa [List.append_nil, maximal_runs_nil] at this

/-! ## The tokenizing loop -/

theorem tok_loop_none (delim : List Char) (grow : Bool) (fuel save : Nat) (st : TokState) :
    tok_loop delim grow fuel none save st = .ok st := by
  cases fuel <;> rfl

theorem tok_loop_some (delim : List Char) (grow : Bool) (fuel a save : Nat) (st : TokState) :
    tok_loop delim grow (fuel + 1) (some a) save st =
      if st.args.length < st.bufsize then
        tok_loop delim grow fuel (strtok st.mem save delim).token (strtok st.mem save delim).save
          ⟨(strtok st.mem save delim).mem, st.args ++ [a],
            if grow && decide ((st.args ++ [a]).length ≥ st.bufsize) then st.bufsize + BUFSIZE
            else st.bufsize⟩
      else .undefined := rfl

/-- The loop, entered after a `strtok` at the start of the unread part `rest` of the buffer:
it stores one pointer per maximal run of `rest`, each reading as that run in the final buffer,
and leaves the part `done` of the buffer before `rest` as it was. -/
theorem tok_loop_run (delim : List Char) (grow : Bool) :
    ∀ (n : Nat) (rest : List Char), rest.length ≤ n → (∀ c ∈ rest, c ≠ NUL) →
    ∀ (done : List Char) (ptrs : List Nat) (bufsize fuel : Nat), rest.length < fuel →
    ∃ (tail : List Char) (newp : List Nat),
      tail.length = rest.length + 1 ∧
      newp.map (cstrAt (done ++ tail)) = maximal_runs delim rest ∧
      tok_loop delim grow fuel (strtok (done ++ rest ++ [NUL]) done.length delim).token
          (strtok (done ++ rest ++ [NUL]) done.length delim).save
          ⟨(strtok (done ++ rest ++ [NUL]) done.length delim).mem, ptrs, bufsize⟩
        = match run_buf grow (maximal_runs delim rest).length ptrs.length bufsize with
          | some b => .ok ⟨done ++ tail, ptrs ++ newp, b⟩
          | none => .undefined := by
  intro n
  induction n with
  | zero =>
    intro rest hlen _ done ptrs bufsize fuel _
    have hr : rest = [] := List.length_eq_zero.mp (Nat.le_zero.mp hlen)
    subst hr
    refine ⟨[NUL], [], rfl, ?_, ?_⟩
    · simp [maximal_runs_nil]
    · have := strtok_none delim done [] (by simp)
      simp only [List.append_nil] at this
      rw [List.append_nil, this, tok_loop_none, maximal_runs_nil]
      simp [run_buf]
  | succ n ih =>
    intro rest hlen hnul done ptrs bufsize fuel hfuel
    rcases token_shape delim rest with hall | ⟨sk, tok, rfl, hsk, hne, htok⟩ |
      ⟨sk, tok, d, r, rfl, hsk, hne, htok, hd⟩
    · -- only delimiters
      refine ⟨rest ++ [NUL], [], by simp, ?_, ?_⟩
      · simp [maximal_runs_all_delim delim rest hall]
      · rw [strtok_none delim done rest (fun c hc => ⟨hall c hc, hnul c hc⟩), tok_loop_none,
          maximal_runs_all_delim delim rest hall]
        simp [run_buf]
    · -- the last token
      have hsk1 : ∀ c ∈ sk, c ∈ delim ∧ c ≠ NUL :=
        fun c hc => ⟨hsk c hc, hnul c (by simp [hc])⟩
      have htok1 : ∀ c ∈ tok, c ∉ delim ∧ c ≠ NUL :=
        fun c hc => ⟨htok c hc, hnul c (by simp [hc])⟩
      have hruns : maximal_runs delim (sk ++ tok) = [tok] := by
        rw [maximal_runs_skip delim sk tok hsk, maximal_runs_last delim tok hne htok]
      refine ⟨sk ++ tok ++ [NUL], [(done ++ sk).length], by simp; omega, ?_, ?_⟩
      · rw [hruns]
        have := cstrAt_append (done ++ sk) tok [] (fun c hc => (htok1 c hc).2)
        simpa using this
      · have h1 := strtok_last delim done sk tok hsk1 htok1 hne
        have e1 : done ++ (sk ++ tok) ++ [NUL] = done ++ sk ++ tok ++ [NUL] := by simp
        rw [e1, h1, hruns]
        obtain ⟨f, rfl⟩ : ∃ f, fuel = f + 1 := ⟨fuel - 1, by omega⟩
        rw [tok_loop_some]
        have h2 := strtok_none delim (done ++ sk ++ tok) [] (by simp)
        simp only [List.append_nil] at h2
        dsimp only
        rw [h2, tok_loop_none]
        simp only [run_buf, List.length_singleton, List.length_append]
        by_cases hb : ptrs.length < bufsize <;> simp [hb]
    · -- a token followed by a delimiter
      have hsk1 : ∀ c ∈ sk, c ∈ delim ∧ c ≠ NUL :=
        fun c hc => ⟨hsk c hc, hnul c (by simp [hc])⟩
      have htok1 : ∀ c ∈ tok, c ∉ delim ∧ c ≠ NUL :=
        fun c hc => ⟨htok c hc, hnul c (by simp [hc])⟩
      have hd1 : d ∈ delim ∧ d ≠ NUL := ⟨hd, hnul d (by simp)⟩
      have hr : ∀ c ∈ r, c ≠ NUL := fun c hc => hnul c (by simp [hc])
      have hruns : maximal_runs delim (sk ++ tok ++ d :: r) = tok :: maximal_runs delim r := by
        rw [List.append_assoc, maximal_runs_skip delim sk _ hsk,
          maximal_runs_mid delim tok d r hne htok hd]
      have hlen1 : (sk ++ tok ++ d :: r).length = sk.length + tok.length + r.length + 1 := by
        simp; omega
      obtain ⟨f, rfl⟩ : ∃ f, fuel = f + 1 := ⟨fuel - 1, by omega⟩
      obtain ⟨tail1, newp1, ht1, hm1, hrun1⟩ :=
        ih r (by omega) hr (done ++ sk ++ tok ++ [NUL]) (ptrs ++ [(done ++ sk).length])
          (if grow && decide ((ptrs ++ [(done ++ sk).length]).length ≥ bufsize)
            then bufsize + BUFSIZE else bufsize) f (by omega)
      refine ⟨sk ++ tok ++ NUL :: tail1, (done ++ sk).length :: newp1, by simp [ht1, hlen1]; omega,
        ?_, ?_⟩
      · rw [hruns, List.map_cons]
        congr 1
        · have := cstrAt_append (done ++ sk) tok tail1 (fun c hc => (htok1 c hc).2)
          simpa using this
        · rw [← hm1]
          simp
      · have h1 := strtok_mid delim done sk tok d (r ++ [NUL]) hsk1 htok1 hne hd1
        have e1 : done ++ (sk ++ tok ++ d :: r) ++ [NUL] = done ++ sk ++ tok ++ d :: (r ++ [NUL]) := by
          simp
        have e2 : done ++ sk ++ tok ++ NUL :: (r ++ [NUL]) = done ++ sk ++ tok ++ [NUL] ++ r ++ [NUL] := by
          simp
        rw [e1, h1, hruns, tok_loop_some]
        dsimp only
        rw [e2]
        simp only [List.length_cons, run_buf]
        by_cases hb : ptrs.length < bufsize
        · simp only [hb, if_true]
          rw [hrun1]
          simp only [List.length_append, List.length_singleton]
          cases run_buf grow (maximal_runs delim r).length (ptrs.length + 1)
            (if grow && decide (ptrs.length + 1 ≥ bufsize) then bufsize + BUFSIZE else bufsize) with
          | none => rfl
          | some b => simp
        · simp [hb]

/-- With growth the capacity stays above the number of stored pointers. -/
theorem run_buf_grow : ∀ (k len bufsize : Nat), len < bufsize →
    ∃ b, run_buf true k len bufsize = some b ∧ len + k < b := by
  intro k
  induction k with
  | zero => intro len bufsize h; exact ⟨bufsize, rfl, h⟩
  | succ k ih =>
    intro len bufsize h
    have hstep : len + 1 <
        (if true && decide (len + 1 ≥ bufsize) then bufsize + BUFSIZE else bufsize) := by
      by_cases hc : len + 1 ≥ bufsize
      · simp [hc, BUFSIZE]; omega
      · simp [hc]; omega
    obtain ⟨b, hb, hlt⟩ := ih (len + 1) _ hstep
    refine ⟨b, ?_, by omega⟩
    simp only [run_buf, h, if_true]
    exact hb

/-- Without growth the capacity is fixed and the stores fit when the number of pointers does. -/
theorem run_buf_fixed : ∀ (k len bufsize : Nat), len + k ≤ bufsize →
    run_buf false k len bufsize = some bufsize := by
  intro k
  induction k with
  | zero => intro len bufsize _; rfl
  | succ k ih =>
    intro len bufsize h
    have h1 : len < bufsize := by omega
    simp only [run_buf, h1, if_true, Bool.false_and]
    exact ih (len + 1) bufsize (by omega)

/-- The tokenizer on the memory of a C string: the pointers it stores read, in the buffer it
leaves, as the maximal delimiter-free runs of the string. -/
theorem tokenize_run (delim : List Char) (grow : Bool) (s : CStr) (hnul : ∀ c ∈ s, c ≠ NUL) :
    ∃ (mem : List Char) (ptrs : List Nat),
      mem.length = s.length + 1 ∧
      ptrs.map (cstrAt mem) = maximal_runs delim s ∧
      tokenize delim grow (cmem s)
        = match run_buf grow (maximal_runs delim s).length 0 BUFSIZE with
          | some b => if ptrs.length < b then .ok ⟨mem, ptrs, b⟩ else .undefined
          | none => .undefined := by
  obtain ⟨tail, newp, hlen, hmap, hrun⟩ :=
    tok_loop_run delim grow s.length s (Nat.le_refl _) hnul [] [] BUFSIZE (cmem s).length
      (by simp [cmem])
  refine ⟨tail, newp, hlen, by simpa using hmap, ?_⟩
  simp only [List.nil_append, List.length_nil] at hrun
  unfold tokenize
  simp only [cmem] at hrun ⊢
  rw [hrun]
  cases run_buf grow (maximal_runs delim s).length 0 BUFSIZE with
  | none => rfl
  | some b => rfl

/-- The tokenizing phase of `split_line` never fails. -/
theorem tokenize_split (s : CStr) (hnul : ∀ c ∈ s, c ≠ NUL) :
    ∃ (mem : List Char) (ptrs : List Nat) (b : Nat),
      mem.length = s.length + 1 ∧
      ptrs.map (cstrAt mem) = maximal_runs ARG_DELIM s ∧ ptrs.length < b ∧
      tokenize ARG_DELIM true (cmem s) = .ok ⟨mem, ptrs, b⟩ := by
  obtain ⟨mem, ptrs, hlen, hmap, hrun⟩ := tokenize_run ARG_DELIM true s hnul
  obtain ⟨b, hb, hlt⟩ := run_buf_grow (maximal_runs ARG_DELIM s).length 0 BUFSIZE (by decide)
  have hl : ptrs.length = (maximal_runs ARG_DELIM s).length := by
    rw [← hmap, List.length_map]
  refine ⟨mem, ptrs, b, hlen, hmap, by omega, ?_⟩
  rw [hrun, hb]
  simp only
  rw [if_pos (by omega)]

/-- When `unescape` answers `NULL` for every argument the buffer is not written. -/
theorem unescape_loop_none (unescape : CStr → Option CStr) (mem : List Char) :
    ∀ (ps : List Nat), (∀ p ∈ ps, unescape (cstrAt mem p) = none) →
      unescape_loop unescape ps mem = some mem := by
  intro ps
  induction ps with
  | nil => intro _; rfl
  | cons p ps ih =>
    intro h
    simp only [unescape_loop, h p (by simp)]
    exact ih (fun q hq => h q (by simp [hq]))

theorem maximal_runs_ne_nil (delim : List Char) (s : CStr) :
    ∀ t ∈ maximal_runs delim s, t ≠ [] := by
  intro t ht
  simp only [maximal_runs, List.mem_filter] at ht
  intro h
  simp [h] at ht

theorem maximal_runs_no_delim (delim : List Char) (s : CStr) :
    ∀ t ∈ maximal_runs delim s, ∀ c ∈ t, c ∉ delim := by
  intro t ht c hc
  have h1 : t ∈ s.splitOnP (fun c => delim.contains c) := (List.mem_filter.mp ht).1
  have h2 : ∀ (l : List Char), ∀ t ∈ l.splitOnP (fun c => delim.contains c),
      ∀ c ∈ t, c ∉ delim := by
    intro l
    induction l with
    | nil =>
      intro t ht c hc
      simp [List.splitOnP_nil] at ht
      simp [ht] at hc
    | cons a l ih =>
      intro t ht c hc
      rw [List.splitOnP_cons] at ht
      by_cases ha : a ∈ delim
      · simp only [List.contains_iff_exists_mem_beq, beq_iff_eq, exists_eq_right', ha,
          if_true, List.mem_cons] at ht
        rcases ht with rfl | ht
        · simp at hc
        · exact ih t ht c hc
      · simp only [List.contains_iff_exists_mem_beq, beq_iff_eq, exists_eq_right', ha,
          if_false] at ht
        cases hsp : l.splitOnP (fun c => delim.contains c) with
        | nil =>
          rw [hsp] at ht
          simp [List.modifyHead] at ht
        | cons h tl =>
          rw [hsp] at ht
          simp only [List.modifyHead, List.mem_cons] at ht
          rcases ht with rfl | ht
          · rcases List.mem_cons.mp hc with rfl | hc
            · exact ha
            · exact ih h (by rw [hsp]; exact List.mem_cons_self _ _) c hc
          · exact ih t (by rw [hsp]; exact List.mem_cons_of_mem _ ht) c hc
  exact h2 s t h1 c hc

/-! ## C1: what `split_line` returns -/

/-- C1, as stated, fails: "for every input line, split_line returns exactly the maximal
delimiter-free runs".  On the line of a bell and a newline, which the blank check of
`shell_loop` lets through, there is no token and `split_line` dereferences `args[0] == NULL`
instead of returning the empty list of runs.  On an `echo` line the arguments are replaced by
what `unescape` answers: with `a\tb` (backslash, t) decoded to a tab, the returned token holds
the delimiter tab and is not a run of the line. -/
theorem split_line_not_always_runs :
    split_line (fun _ => none) [Char.ofNat 7, '\n'] = .undefined ∧
    maximal_runs ARG_DELIM [Char.ofNat 7, '\n'] = [] ∧
    is_empty [Char.ofNat 7, '\n'] = false ∧
    split_line (fun t => if t = ['a', '\\', 't', 'b'] then some ['a', '\t', 'b'] else none)
        ['e', 'c', 'h', 'o', ' ', 'a', '\\', 't', 'b', '\n']
      = .ok [['e', 'c', 'h', 'o'], ['a', '\t', 'b']] ∧
    maximal_runs ARG_DELIM ['e', 'c', 'h', 'o', ' ', 'a', '\\', 't', 'b', '\n']
      = [['e', 'c', 'h', 'o'], ['a', '\\', 't', 'b']] ∧
    '\t' ∈ ARG_DELIM := by
  refine ⟨by decide, by decide, by decide, by decide, by decide, by decide⟩

/-- C1, amended: for every line (a C string, so without NUL) that has at least one token, and
whose first token is not `echo` or whose arguments `unescape` leaves alone, `split_line`
returns exactly the maximal runs of non-delimiter characters of the line, in order; none of
them is empty and none holds a delimiter. -/
theorem split_line_tokens (unescape : CStr → Option CStr) (line : CStr)
    (hnul : ∀ c ∈ line, c ≠ NUL)
    (hne : maximal_runs ARG_DELIM line ≠ [])
    (hecho : (maximal_runs ARG_DELIM line).head? ≠ some ECHO ∨
      ∀ t ∈ (maximal_runs ARG_DELIM line).tail, unescape t = none) :
    split_line unescape line = .ok (maximal_runs ARG_DELIM line) ∧
    (∀ t ∈ maximal_runs ARG_DELIM line, t ≠ [] ∧ ∀ c ∈ t, c ∉ ARG_DELIM) := by
  refine ⟨?_, fun t ht => ⟨maximal_runs_ne_nil _ _ t ht, maximal_runs_no_delim _ _ t ht⟩⟩
  obtain ⟨mem, ptrs, b, _, hmap, _, htk⟩ := tokenize_split line hnul
  unfold split_line
  rw [htk]
  cases ptrs with
  | nil => exact absurd hmap.symm hne
  | cons p0 ps =>
    simp only
    rw [← hmap] at hecho
    by_cases hE : cstrAt mem p0 = ECHO
    · have hall : ∀ p ∈ ps, unescape (cstrAt mem p) = none := by
        rcases hecho with h | h
        · exact absurd (by simp [hE]) h
        · intro p hp
          exact h _ (by simpa using ⟨p, hp, rfl⟩)
      rw [if_pos (by simpa using hE), unescape_loop_none unescape mem ps hall]
      simp only
      rw [hmap]
    · rw [if_neg (by simpa using hE), hmap]

/-- C1, amended, at the line `ls -la`. -/
theorem split_line_tokens_witness :
    (∀ c ∈ ['l', 's', ' ', '-', 'l', 'a', '\n'], c ≠ NUL) ∧
    maximal_runs ARG_DELIM ['l', 's', ' ', '-', 'l', 'a', '\n'] ≠ [] ∧
    split_line (fun _ => none) ['l', 's', ' ', '-', 'l', 'a', '\n']
      = .ok (maximal_runs ARG_DELIM ['l', 's', ' ', '-', 'l', 'a', '\n']) ∧
    (∀ t ∈ maximal_runs ARG_DELIM ['l', 's', ' ', '-', 'l', 'a', '\n'],
      t ≠ [] ∧ ∀ c ∈ t, c ∉ ARG_DELIM) :=
  ⟨by decide, by decide,
    split_line_tokens (fun _ => none) ['l', 's', ' ', '-', 'l', 'a', '\n'] (by decide)
      (by decide) (Or.inl (by decide))⟩

/-! ## C2: dispatch in `load` -/

/-- When some reported status is terminal, the wait loop ends, on a terminal status. -/
theorem wait_loop_ends : ∀ (statuses : List WaitStatus),
    (∃ s ∈ statuses, WIFEXITED s = true ∨ WIFSIGNALED s = true) →
    ∃ s, wait_loop statuses = some s ∧ (WIFEXITED s = true ∨ WIFSIGNALED s = true) := by
  intro statuses
  induction statuses with
  | nil => intro h; simp at h
  | cons a l ih =>
    intro h
    by_cases ha : WIFEXITED a = true ∨ WIFSIGNALED a = true
    · refine ⟨a, ?_, ha⟩
      rcases ha with ha | ha <;> simp [wait_loop, ha]
    · have ha1 : WIFEXITED a = false := by
        cases hx : WIFEXITED a <;> simp [hx] at ha ⊢
      have ha2 : WIFSIGNALED a = false := by
        cases hx : WIFSIGNALED a <;> simp [hx] at ha ⊢
      obtain ⟨s, hs, hterm⟩ := h
      rcases List.mem_cons.mp hs with rfl | hs
      · exact absurd hterm ha
      · obtain ⟨s1, h1, h2⟩ := ih ⟨s, hs, hterm⟩
        exact ⟨s1, by simp [wait_loop, ha1, ha2, h1], h2⟩

/-- C2: `load` compares `args[0]` with `exit` and `proc` exactly: a command with another name
goes to `execute` with the whole argument vector, and `execute` returns 1 whether `fork` fails
or the child ends (by exiting, as after a failed `execvp`, or by a signal); the names `exit` and
`proc` give the result of `builtin_exit` and `builtin_proc` unchanged. -/
theorem load_dispatch (a0 : CStr) (rest : List CStr) (w : Spawn)
    (hw : ∀ statuses, w = .forked statuses →
      ∃ s ∈ statuses, WIFEXITED s = true ∨ WIFSIGNALED s = true) :
    load (a0 :: rest) w =
      (if a0 = ['e', 'x', 'i', 't'] then builtin_exit (a0 :: rest)
       else if a0 = ['p', 'r', 'o', 'c'] then builtin_proc (a0 :: rest)
       else execute (a0 :: rest) w) ∧
    (execute (a0 :: rest) w).result = .ret 1 ∧
    ((w = .forkFails ∧ (execute (a0 :: rest) w).trace = [.forkError]) ∨
      ∃ s, (execute (a0 :: rest) w).trace = [.spawn (a0 :: rest), .waited s] ∧
        (WIFEXITED s = true ∨ WIFSIGNALED s = true)) := by
  refine ⟨?_, ?_⟩
  · by_cases h1 : a0 = ['e', 'x', 'i', 't']
    · simp [load, load_loop, builtin_arr, builtin_func, h1]
    · by_cases h2 : a0 = ['p', 'r', 'o', 'c']
      · simp [load, load_loop, builtin_arr, builtin_func, h2]
      · simp [load, load_loop, builtin_arr, builtin_func, h1, h2]
  · cases w with
    | forkFails => exact ⟨rfl, Or.inl ⟨rfl, rfl⟩⟩
    | forked statuses =>
      obtain ⟨s, hs, hterm⟩ := wait_loop_ends statuses (hw statuses rfl)
      refine ⟨by simp [execute, hs], Or.inr ⟨s, by simp [execute, hs], hterm⟩⟩

/-- C2 at the near miss `procx -l`, the child stopped once and then exiting with 127. -/
theorem load_dispatch_witness :
    load [['p', 'r', 'o', 'c', 'x'], ['-', 'l']] (.forked [.stopped 19, .exited 127]) =
      (if ['p', 'r', 'o', 'c', 'x'] = ['e', 'x', 'i', 't'] then
        builtin_exit [['p', 'r', 'o', 'c', 'x'], ['-', 'l']]
       else if ['p', 'r', 'o', 'c', 'x'] = ['p', 'r', 'o', 'c'] then
        builtin_proc [['p', 'r', 'o', 'c', 'x'], ['-', 'l']]
       else execute [['p', 'r', 'o', 'c', 'x'], ['-', 'l']]
        (.forked [.stopped 19, .exited 127])) ∧
    (execute [['p', 'r', 'o', 'c', 'x'], ['-', 'l']]
      (.forked [.stopped 19, .exited 127])).result = .ret 1 ∧
    ((Spawn.forked [.stopped 19, .exited 127] = .forkFails ∧
      (execute [['p', 'r', 'o', 'c', 'x'], ['-', 'l']]
        (.forked [.stopped 19, .exited 127])).trace = [.forkError]) ∨
      ∃ s, (execute [['p', 'r', 'o', 'c', 'x'], ['-', 'l']]
          (.forked [.stopped 19, .exited 127])).trace
            = [.spawn [['p', 'r', 'o', 'c', 'x'], ['-', 'l']], .waited s] ∧
        (WIFEXITED s = true ∨ WIFSIGNALED s = true)) :=
  load_dispatch ['p', 'r', 'o', 'c', 'x'] [['-', 'l']] (.forked [.stopped 19, .exited 127])
    (fun statuses h => by
      cases h
      exact ⟨.exited 127, by simp, Or.inl rfl⟩)

/-! ## C3, C4, C7: the paths `builtin_proc` builds -/

/-- C3: for `proc name` with no `/` in `name`: when `name` is exactly one of `cpuinfo`,
`loadavg`, `filesystems`, `mounts`, the path given to the file dump is `/proc/` followed by
`name`; otherwise no path is built and the unsupported-file message is printed.  Both
return 1. -/
theorem builtin_proc_global (name : CStr) (hs : '/' ∉ name) :
    builtin_proc [['p', 'r', 'o', 'c'], name] =
      if name = ['c', 'p', 'u', 'i', 'n', 'f', 'o'] ∨ name = ['l', 'o', 'a', 'd', 'a', 'v', 'g'] ∨
          name = ['f', 'i', 'l', 'e', 's', 'y', 's', 't', 'e', 'm', 's'] ∨
          name = ['m', 'o', 'u', 'n', 't', 's'] then
        ⟨[.dumpFile (['/', 'p', 'r', 'o', 'c', '/'] ++ name)], .ret 1,
          [['p', 'r', 'o', 'c'], name]⟩
      else ⟨[.unsupportedFile], .ret 1, [['p', 'r', 'o', 'c'], name]⟩ := by
  have hany : name.any (fun c => c == '/') = false := by
    rw [List.any_eq_false]
    intro x hx
    simp only [beq_iff_eq]
    rintro rfl
    exact hs hx
  by_cases hmem : name = ['c', 'p', 'u', 'i', 'n', 'f', 'o'] ∨
      name = ['l', 'o', 'a', 'd', 'a', 'v', 'g'] ∨
      name = ['f', 'i', 'l', 'e', 's', 'y', 's', 't', 'e', 'm', 's'] ∨
      name = ['m', 'o', 'u', 'n', 't', 's']
  · rw [if_pos hmem]
    rcases hmem with rfl | rfl | rfl | rfl <;> decide
  · rw [if_neg hmem]
    have h2 : required_files.any (fun f => name == f) = false := by
      rw [List.any_eq_false]
      intro x hx
      simp only [beq_iff_eq]
      rintro rfl
      apply hmem
      simpa [required_files] using hx
    simp [builtin_proc, hany, h2]

/-- C3 at `proc cpuinfo`, which dumps `/proc/cpuinfo`, with `proc loadavg`,
`proc filesystems` and `proc mounts` dumping their paths and `proc unknown` rejected. -/
theorem builtin_proc_global_witness :
    '/' ∉ ['c', 'p', 'u', 'i', 'n', 'f', 'o'] ∧
    (builtin_proc [['p', 'r', 'o', 'c'], ['c', 'p', 'u', 'i', 'n', 'f', 'o']] =
      if ['c', 'p', 'u', 'i', 'n', 'f', 'o'] = ['c', 'p', 'u', 'i', 'n', 'f', 'o'] ∨
          ['c', 'p', 'u', 'i', 'n', 'f', 'o'] = ['l', 'o', 'a', 'd', 'a', 'v', 'g'] ∨
          ['c', 'p', 'u', 'i', 'n', 'f', 'o']
            = ['f', 'i', 'l', 'e', 's', 'y', 's', 't', 'e', 'm', 's'] ∨
          ['c', 'p', 'u', 'i', 'n', 'f', 'o'] = ['m', 'o', 'u', 'n', 't', 's'] then
        ⟨[.dumpFile (['/', 'p', 'r', 'o', 'c', '/'] ++ ['c', 'p', 'u', 'i', 'n', 'f', 'o'])],
          .ret 1, [['p', 'r', 'o', 'c'], ['c', 'p', 'u', 'i', 'n', 'f', 'o']]⟩
      else ⟨[.unsupportedFile], .ret 1,
          [['p', 'r', 'o', 'c'], ['c', 'p', 'u', 'i', 'n', 'f', 'o']]⟩) ∧
    builtin_proc [['p', 'r', 'o', 'c'], ['c', 'p', 'u', 'i', 'n', 'f', 'o']]
      = ⟨[.dumpFile ['/', 'p', 'r', 'o', 'c', '/', 'c', 'p', 'u', 'i', 'n', 'f', 'o']], .ret 1,
          [['p', 'r', 'o', 'c'], ['c', 'p', 'u', 'i', 'n', 'f', 'o']]⟩ ∧
    (builtin_proc [['p', 'r', 'o', 'c'], ['l', 'o', 'a', 'd', 'a', 'v', 'g']]).trace
      = [.dumpFile ['/', 'p', 'r', 'o', 'c', '/', 'l', 'o', 'a', 'd', 'a', 'v', 'g']] ∧
    (builtin_proc [['p', 'r', 'o', 'c'],
        ['f', 'i', 'l', 'e', 's', 'y', 's', 't', 'e', 'm', 's']]).trace
      = [.dumpFile ['/', 'p', 'r', 'o', 'c', '/',
          'f', 'i', 'l', 'e', 's', 'y', 's', 't', 'e', 'm', 's']] ∧
    (builtin_proc [['p', 'r', 'o', 'c'], ['m', 'o', 'u', 'n', 't', 's']]).trace
      = [.dumpFile ['/', 'p', 'r', 'o', 'c', '/', 'm', 'o', 'u', 'n', 't', 's']] ∧
    builtin_proc [['p', 'r', 'o', 'c'], ['u', 'n', 'k', 'n', 'o', 'w', 'n']]
      = ⟨[.unsupportedFile], .ret 1,
          [['p', 'r', 'o', 'c'], ['u', 'n', 'k', 'n', 'o', 'w', 'n']]⟩ :=
  ⟨by decide, builtin_proc_global ['c', 'p', 'u', 'i', 'n', 'f', 'o'] (by decide),
    by decide, by decide, by decide, by decide, by decide⟩

/-- C7: with an argument vector of length other than 2, `builtin_proc` reports the usage
through `builtin_proc_err` and returns 1; no path is built and no file is dumped. -/
theorem builtin_proc_usage (args : List CStr) (h : args.length ≠ 2) :
    builtin_proc args = builtin_proc_err args ∧
    builtin_proc_err args = ⟨[.procUsage], .ret 1, args⟩ ∧
    (∀ path, Event.dumpFile path ∉ (builtin_proc args).trace) := by
  have h1 : builtin_proc args = builtin_proc_err args := by
    unfold builtin_proc
    rw [if_pos h]
  refine ⟨h1, rfl, ?_⟩
  intro path
  rw [h1]
  simp [builtin_proc_err]

/-- C7 at `proc 1/status 2/status`. -/
theorem builtin_proc_usage_witness :
    [['p', 'r', 'o', 'c'], ['1', '/', 's', 't', 'a', 't', 'u', 's'],
      ['2', '/', 's', 't', 'a', 't', 'u', 's']].length ≠ 2 ∧
    (builtin_proc [['p', 'r', 'o', 'c'], ['1', '/', 's', 't', 'a', 't', 'u', 's'],
        ['2', '/', 's', 't', 'a', 't', 'u', 's']]
      = builtin_proc_err [['p', 'r', 'o', 'c'], ['1', '/', 's', 't', 'a', 't', 'u', 's'],
        ['2', '/', 's', 't', 'a', 't', 'u', 's']] ∧
    builtin_proc_err [['p', 'r', 'o', 'c'], ['1', '/', 's', 't', 'a', 't', 'u', 's'],
        ['2', '/', 's', 't', 'a', 't', 'u', 's']]
      = ⟨[.procUsage], .ret 1, [['p', 'r', 'o', 'c'], ['1', '/', 's', 't', 'a', 't', 'u', 's'],
        ['2', '/', 's', 't', 'a', 't', 'u', 's']]⟩ ∧
    (∀ path, Event.dumpFile path ∉ (builtin_proc [['p', 'r', 'o', 'c'],
        ['1', '/', 's', 't', 'a', 't', 'u', 's'],
        ['2', '/', 's', 't', 'a', 't', 'u', 's']]).trace)) :=
  ⟨by decide, builtin_proc_usage _ (by decide)⟩

/-- Tokenizing of a string made of two tokens with one delimiter between them: the delimiter
becomes a terminator, the pointers are the starts of the two tokens. -/
theorem tokenize_two (delim : List Char) (grow : Bool) (t1 t2 : CStr) (d : Char)
    (h1 : ∀ c ∈ t1, c ∉ delim ∧ c ≠ NUL) (h2 : ∀ c ∈ t2, c ∉ delim ∧ c ≠ NUL)
    (hne1 : t1 ≠ []) (hne2 : t2 ≠ []) (hd : d ∈ delim ∧ d ≠ NUL) :
    tokenize delim grow (cmem (t1 ++ d :: t2))
      = .ok ⟨t1 ++ NUL :: t2 ++ [NUL], [0, t1.length + 1], BUFSIZE⟩ := by
  have s1 := strtok_mid delim [] [] t1 d (t2 ++ [NUL]) (by simp) h1 hne1 hd
  have s2 := strtok_last delim (t1 ++ [NUL]) [] t2 (by simp) h2 hne2
  have s3 := strtok_none delim (t1 ++ [NUL] ++ t2) [] (by simp)
  simp only [List.nil_append, List.append_nil, List.length_nil] at s1 s2 s3
  have e1 : cmem (t1 ++ d :: t2) = t1 ++ d :: (t2 ++ [NUL]) := by simp [cmem]
  have e2 : t1 ++ NUL :: (t2 ++ [NUL]) = t1 ++ [NUL] ++ t2 ++ [NUL] := by simp
  have hl1 : 0 < t1.length := List.length_pos.mpr hne1
  have hl2 : 0 < t2.length := List.length_pos.mpr hne2
  obtain ⟨f, hf⟩ : ∃ f, (t1 ++ d :: (t2 ++ [NUL])).length = f + 2 :=
    ⟨t1.length + t2.length, by simp; omega⟩
  unfold tokenize
  rw [e1, s1, hf]
  dsimp only
  rw [tok_loop_some]
  dsimp only
  rw [e2, s2, tok_loop_some]
  dsimp only
  rw [s3, tok_loop_none]
  simp [BUFSIZE]

/-- C4: for `proc pid/subpath` with `pid` and `subpath` non-empty and free of `/`, and the path
with its terminator fitting the 64 bytes of `file_path`, the path given to the file dump is
`/proc/`, `pid`, `/`, `subpath`; `pid` is taken as it is, no check that it is a number.
Afterwards `args[1]` reads `pid`, the `/` having been overwritten by `strtok`. -/
theorem builtin_proc_pid (pid subpath : CStr)
    (hpid : ∀ c ∈ pid, c ≠ '/' ∧ c ≠ NUL) (hsub : ∀ c ∈ subpath, c ≠ '/' ∧ c ≠ NUL)
    (hne1 : pid ≠ []) (hne2 : subpath ≠ [])
    (hfit : (PROC_ROOT ++ pid ++ '/' :: subpath).length + 1 ≤ PATH_SIZE) :
    builtin_proc [['p', 'r', 'o', 'c'], pid ++ '/' :: subpath] =
      ⟨[.dumpFile (PROC_ROOT ++ pid ++ '/' :: subpath)], .ret 1, [['p', 'r', 'o', 'c'], pid]⟩ := by
  have htk := tokenize_two ['/'] false pid subpath '/'
    (fun c hc => ⟨by simpa using (hpid c hc).1, (hpid c hc).2⟩)
    (fun c hc => ⟨by simpa using (hsub c hc).1, (hsub c hc).2⟩) hne1 hne2
    ⟨by simp, by decide⟩
  have hany : (pid ++ '/' :: subpath).any (fun c => c == '/') = true := by simp
  have r0 : cstrAt (pid ++ NUL :: subpath ++ [NUL]) 0 = pid := by
    have := cstrAt_append [] pid (subpath ++ [NUL]) (fun c hc => (hpid c hc).2)
    simpa using this
  have r1 : cstrAt (pid ++ NUL :: subpath ++ [NUL]) (pid.length + 1) = subpath := by
    have := cstrAt_append (pid ++ [NUL]) subpath [] (fun c hc => (hsub c hc).2)
    simpa using this
  have hlen : PROC_ROOT.length = 6 := rfl
  simp only [List.length_append, List.length_cons, hlen, PATH_SIZE] at hfit
  unfold builtin_proc
  simp only [List.length_cons, List.length_nil, ne_eq, not_true_eq_false, if_false,
    List.getD_cons_succ, List.getD_cons_zero, hany, if_true, htk]
  simp only [List.get?_cons_zero, List.get?_cons_succ, Option.map_some', r0, r1]
  have c0 : path_strcpy PROC_ROOT = some PROC_ROOT := by decide
  have c1 : path_strcat PROC_ROOT (some pid) = some (PROC_ROOT ++ pid) := by
    simp only [path_strcat, hlen, PATH_SIZE]
    rw [if_pos (by omega)]
  have c2 : path_strcat (PROC_ROOT ++ pid) (some ['/']) = some (PROC_ROOT ++ pid ++ ['/']) := by
    simp only [path_strcat, hlen, PATH_SIZE, List.length_append, List.length_singleton]
    rw [if_pos (by omega)]
  have c3 : path_strcat (PROC_ROOT ++ pid ++ ['/']) (some subpath)
      = some (PROC_ROOT ++ pid ++ ['/'] ++ subpath) := by
    simp only [path_strcat, hlen, PATH_SIZE, List.length_append, List.length_singleton]
    rw [if_pos (by omega)]
  simp only [c0, Option.some_bind, c1, c2, c3]
  simp

/-- C4 at `proc self/status`. -/
theorem builtin_proc_pid_witness :
    (∀ c ∈ ['s', 'e', 'l', 'f'], c ≠ '/' ∧ c ≠ NUL) ∧
    (∀ c ∈ ['s', 't', 'a', 't', 'u', 's'], c ≠ '/' ∧ c ≠ NUL) ∧
    (PROC_ROOT ++ ['s', 'e', 'l', 'f'] ++ '/' :: ['s', 't', 'a', 't', 'u', 's']).length + 1
      ≤ PATH_SIZE ∧
    builtin_proc [['p', 'r', 'o', 'c'], ['s', 'e', 'l', 'f'] ++ '/' :: ['s', 't', 'a', 't', 'u', 's']]
      = ⟨[.dumpFile (PROC_ROOT ++ ['s', 'e', 'l', 'f'] ++ '/' :: ['s', 't', 'a', 't', 'u', 's'])],
          .ret 1, [['p', 'r', 'o', 'c'], ['s', 'e', 'l', 'f']]⟩ :=
  ⟨by decide, by decide, by decide,
    builtin_proc_pid ['s', 'e', 'l', 'f'] ['s', 't', 'a', 't', 'u', 's'] (by decide) (by decide)
      (by decide) (by decide) (by decide)⟩

/-! ## C5, C6: arguments of `proc` that `builtin_proc` does not guard against -/

/-- C5: on `proc /`, `proc 1/` and `proc /status` the split on `/` leaves `tokens[0]` or
`tokens[1]` at `NULL`, and `builtin_proc` passes it to `strcat`: undefined behaviour, where the
claim asks for a path or an error. -/
theorem builtin_proc_missing_segment :
    (builtin_proc [['p', 'r', 'o', 'c'], ['/']]).result = .undefined ∧
    (builtin_proc [['p', 'r', 'o', 'c'], ['1', '/']]).result = .undefined ∧
    (builtin_proc [['p', 'r', 'o', 'c'], ['/', 's', 't', 'a', 't', 'u', 's']]).result
      = .undefined := by
  refine ⟨by decide, by decide, by decide⟩

/-- C6: on `proc pid/status` with a `pid` of 58 characters the path has 71 characters; the
`strcat` calls write it past the 64 bytes of `file_path`: undefined behaviour, where the claim
asks for `PathTooLong`. -/
theorem builtin_proc_overflow :
    (PROC_ROOT ++ List.replicate 58 '1' ++ '/' :: ['s', 't', 'a', 't', 'u', 's']).length = 71 ∧
    (builtin_proc [['p', 'r', 'o', 'c'],
      List.replicate 58 '1' ++ '/' :: ['s', 't', 'a', 't', 'u', 's']]).result = .undefined := by
  refine ⟨by decide, by decide⟩

/-! ## C8, C9, C10: the builtin `exit` -/

/-- A run of digits read by `takeWhile` and `dropWhile`. -/
theorem digits_split (s2 : CStr) :
    (s2 ≠ [] ∧ s2.all Char.isDigit = true →
      s2.takeWhile Char.isDigit = s2 ∧ s2.dropWhile Char.isDigit = []) ∧
    (¬ (s2 ≠ [] ∧ s2.all Char.isDigit = true) →
      s2.takeWhile Char.isDigit = [] ∨ s2.dropWhile Char.isDigit ≠ []) := by
  constructor
  · rintro ⟨_, hall⟩
    have h : ∀ c ∈ s2, Char.isDigit c = true := by simpa using hall
    exact ⟨List.takeWhile_eq_self_iff.mpr h, List.dropWhile_eq_nil_iff.mpr h⟩
  · intro h
    by_cases hd : s2.dropWhile Char.isDigit = []
    · left
      have hall : ∀ c ∈ s2, Char.isDigit c = true := List.dropWhile_eq_nil_iff.mp hd
      have : s2 = [] := by
        by_contra hne
        exact h ⟨hne, by simpa using hall⟩
      simp [this]
    · exact Or.inr hd

/-- On an integer literal, after white space, `strtol` converts all of the string. -/
theorem strtol_some (a : CStr) (n : Int) (h : int_literal (a.dropWhile isspace) = some n) :
    strtol a = (max LONG_MIN (min LONG_MAX n), []) := by
  unfold strtol
  cases ha : a.dropWhile isspace with
  | nil => rw [ha] at h; simp [int_literal] at h
  | cons c t =>
    rw [ha] at h
    simp only [int_literal] at h
    by_cases h1 : c = '-'
    · subst h1
      simp only [if_true] at h
      by_cases h2 : t ≠ [] ∧ t.all Char.isDigit = true
      · rw [if_pos h2] at h
        obtain ⟨e1, e2⟩ := (digits_split t).1 h2
        have hn : n = -(digits_value t) := by simpa using h.symm
        have he : t.isEmpty = false := by simpa using h2.1
        simp [e1, e2, he, hn]
      · rw [if_neg h2] at h
        cases h
    · simp only [h1, if_false] at h
      by_cases h3 : c = '+'
      · subst h3
        simp only [if_true] at h
        by_cases h2 : t ≠ [] ∧ t.all Char.isDigit = true
        · rw [if_pos h2] at h
          obtain ⟨e1, e2⟩ := (digits_split t).1 h2
          have hn : n = digits_value t := by simpa using h.symm
          have he : t.isEmpty = false := by simpa using h2.1
          simp [e1, e2, he, hn]
        · rw [if_neg h2] at h
          cases h
      · simp only [h3, if_false] at h
        by_cases h2 : (c :: t).all Char.isDigit = true
        · rw [if_pos h2] at h
          obtain ⟨e1, e2⟩ := (digits_split (c :: t)).1 ⟨List.cons_ne_nil _ _, h2⟩
          have hn : n = digits_value (c :: t) := by simpa using h.symm
          simp [e1, e2, hn, h1, h3]
        · rw [if_neg h2] at h
          cases h


/-- On a non-empty string that is no integer literal `strtol` stops before the end. -/
theorem strtol_none (a : CStr) (hne : a ≠ []) (h : int_literal (a.dropWhile isspace) = none) :
    (strtol a).2 ≠ [] := by
  unfold strtol
  cases ha : a.dropWhile isspace with
  | nil => simpa using hne
  | cons c t =>
    rw [ha] at h
    simp only [int_literal] at h
    have key : ∀ s2 : CStr, ¬ (s2 ≠ [] ∧ s2.all Char.isDigit = true) → ∀ v : Int,
        (if (s2.takeWhile Char.isDigit).isEmpty = true then ((0 : Int), a)
          else (v, s2.dropWhile Char.isDigit)).2 ≠ [] := by
      intro s2 hs2 v
      rcases (digits_split s2).2 hs2 with e | e
      · simpa [e] using hne
      · by_cases he : (s2.takeWhile Char.isDigit).isEmpty = true
        · simpa [he] using hne
        · simpa [he] using e
    by_cases h1 : c = '-'
    · subst h1
      simp only [if_true] at h
      have h2 : ¬ (t ≠ [] ∧ t.all Char.isDigit = true) := by
        intro h2
        rw [if_pos h2] at h
        cases h
      simpa using key t h2 _
    · simp only [h1, if_false] at h
      by_cases h3 : c = '+'
      · subst h3
        simp only [if_true] at h
        have h2 : ¬ (t ≠ [] ∧ t.all Char.isDigit = true) := by
          intro h2
          rw [if_pos h2] at h
          cases h
        simpa using key t h2 _
      · simp only [h3, if_false] at h
        have h2 : ¬ ((c :: t) ≠ [] ∧ (c :: t).all Char.isDigit = true) := by
          rintro ⟨_, h2⟩
          rw [if_pos h2] at h
          cases h
        simpa [h1, h3] using key (c :: t) h2 _

/-- A value in the range of `int` passes to `exit` unchanged. -/
theorem long_to_int_id (n : Int) (h1 : INT_MIN ≤ n) (h2 : n ≤ INT_MAX) :
    long_to_int (max LONG_MIN (min LONG_MAX n)) = n := by
  simp only [INT_MIN, INT_MAX] at h1 h2
  have e1 : min LONG_MAX n = n := by
    apply min_eq_right
    simp only [LONG_MAX]
    omega
  have e2 : max LONG_MIN n = n := by
    apply max_eq_right
    simp only [LONG_MIN]
    omega
  rw [e1, e2]
  simp only [long_to_int]
  omega

/-- C8, as stated, fails: the literal 9223372036854775808 (2^63) is an integer literal in its
entirety, yet `strtol` clamps it to `LONG_MAX` and `exit` receives -1, not that number; and the
empty argument has no digit at all, yet `*end` is the terminator and the process exits with 0. -/
theorem builtin_exit_not_always_status :
    int_literal ['9', '2', '2', '3', '3', '7', '2', '0', '3', '6', '8', '5', '4', '7', '7', '5',
      '8', '0', '8'] = some 9223372036854775808 ∧
    (builtin_exit [['e', 'x', 'i', 't'], ['9', '2', '2', '3', '3', '7', '2', '0', '3', '6', '8',
      '5', '4', '7', '7', '5', '8', '0', '8']]).result = .exit (-1) ∧
    int_literal [] = none ∧
    (builtin_exit [['e', 'x', 'i', 't'], []]).result = .exit 0 := by
  refine ⟨by decide, by decide, by decide, by decide⟩

/-- C8, amended: for `exit a` with `a` not empty: when `a`, after the white space `strtol`
skips, is a base-10 integer literal `n` in its entirety, `builtin_exit` frees the line and the
arguments and calls `exit`, with `n` itself when `n` is in the range of `int`, else with `n`
clamped to `long` and converted to `int`; otherwise (no digit, or a character after the digits)
it returns 1 and the process goes on. -/
theorem builtin_exit_numeric (a : CStr) (hne : a ≠ []) :
    builtin_exit [['e', 'x', 'i', 't'], a] =
      match int_literal (a.dropWhile isspace) with
      | some n =>
        ⟨[.cleanMem],
          .exit (if INT_MIN ≤ n ∧ n ≤ INT_MAX then n
            else long_to_int (max LONG_MIN (min LONG_MAX n))),
          [['e', 'x', 'i', 't'], a]⟩
      | none => ⟨[], .ret 1, [['e', 'x', 'i', 't'], a]⟩ := by
  cases h : int_literal (a.dropWhile isspace) with
  | none =>
    have := strtol_none a hne h
    simp [builtin_exit, this]
  | some n =>
    have := strtol_some a n h
    by_cases hr : INT_MIN ≤ n ∧ n ≤ INT_MAX
    · simp [builtin_exit, this, hr, long_to_int_id n hr.1 hr.2]
    · simp [builtin_exit, this, hr]

/-- C8, amended, at `exit 9`. -/
theorem builtin_exit_numeric_witness :
    ['9'] ≠ [] ∧
    builtin_exit [['e', 'x', 'i', 't'], ['9']] =
      match int_literal (['9'].dropWhile isspace) with
      | some n =>
        ⟨[.cleanMem],
          .exit (if INT_MIN ≤ n ∧ n ≤ INT_MAX then n
            else long_to_int (max LONG_MIN (min LONG_MAX n))),
          [['e', 'x', 'i', 't'], ['9']]⟩
      | none => ⟨[], .ret 1, [['e', 'x', 'i', 't'], ['9']]⟩ :=
  ⟨by decide, builtin_exit_numeric ['9'] (by decide)⟩

/-- C9: `exit` with two or more arguments reports too many arguments and returns 1, without
looking at the arguments and without ending the process. -/
theorem builtin_exit_too_many (a1 a2 : CStr) (rest : List CStr) :
    builtin_exit (['e', 'x', 'i', 't'] :: a1 :: a2 :: rest)
      = ⟨[.tooManyArguments], .ret 1, ['e', 'x', 'i', 't'] :: a1 :: a2 :: rest⟩ := by
  simp [builtin_exit]

/-- C10: the bare `exit` returns 0 and does not end the process itself; `shell_loop`, on a line
that is just `exit`, calls `clean_mem` and leaves its loop, and `main` returns 0. -/
theorem bare_exit_stops (unescape : CStr → Option CStr) (line : CStr) (w : Spawn)
    (rest : List (CStr × Spawn)) (argc : Nat) (hargc : argc ≤ 1)
    (hline : is_empty line = false)
    (hsplit : split_line unescape line = .ok [['e', 'x', 'i', 't']]) :
    builtin_exit [['e', 'x', 'i', 't']] = ⟨[], .ret 0, [['e', 'x', 'i', 't']]⟩ ∧
    shell_loop unescape ((line, w) :: rest) = ([.prompt, .cleanMem], .returned) ∧
    main unescape argc ((line, w) :: rest) = ([.prompt, .cleanMem], .exit 0) := by
  have h1 : builtin_exit [['e', 'x', 'i', 't']] = ⟨[], .ret 0, [['e', 'x', 'i', 't']]⟩ := by
    decide
  have h2 : load [['e', 'x', 'i', 't']] w = ⟨[], .ret 0, [['e', 'x', 'i', 't']]⟩ := by
    simp [load, load_loop, builtin_arr, builtin_func, h1]
  have h3 : shell_loop unescape ((line, w) :: rest) = ([.prompt, .cleanMem], .returned) := by
    simp [shell_loop, hline, hsplit, h2]
  refine ⟨h1, h3, ?_⟩
  have h4 : ¬ argc > 1 := by omega
  simp [main, h4, h3]

/-- C10 at the line `exit`, read as the only line. -/
theorem bare_exit_stops_witness :
    (1 : Nat) ≤ 1 ∧
    is_empty ['e', 'x', 'i', 't', '\n'] = false ∧
    split_line (fun _ => none) ['e', 'x', 'i', 't', '\n'] = .ok [['e', 'x', 'i', 't']] ∧
    builtin_exit [['e', 'x', 'i', 't']] = ⟨[], .ret 0, [['e', 'x', 'i', 't']]⟩ ∧
    shell_loop (fun _ => none) ((['e', 'x', 'i', 't', '\n'], Spawn.forkFails) :: [])
      = ([.prompt, .cleanMem], .returned) ∧
    main (fun _ => none) 1 ((['e', 'x', 'i', 't', '\n'], Spawn.forkFails) :: [])
      = ([.prompt, .cleanMem], .exit 0) :=
  ⟨by decide, by decide, by decide,
    bare_exit_stops (fun _ => none) ['e', 'x', 'i', 't', '\n'] .forkFails [] 1 (by decide)
      (by decide) (by decide)⟩

/-! ## Shapes of the outcomes of the command handlers -/

theorem load_cons (a0 : CStr) (rest : List CStr) (w : Spawn) :
    load (a0 :: rest) w =
      (if a0 = ['e', 'x', 'i', 't'] then builtin_exit (a0 :: rest)
       else if a0 = ['p', 'r', 'o', 'c'] then builtin_proc (a0 :: rest)
       else execute (a0 :: rest) w) := by
  by_cases h1 : a0 = ['e', 'x', 'i', 't']
  · simp [load, load_loop, builtin_arr, builtin_func, h1]
  · by_cases h2 : a0 = ['p', 'r', 'o', 'c']
    · simp [load, load_loop, builtin_arr, builtin_func, h2]
    · simp [load, load_loop, builtin_arr, builtin_func, h1, h2]

/-- What `builtin_proc` can do: one report or one dump at most, and it returns 1 when it
returns. -/
theorem builtin_proc_shape (args : List CStr) :
    ((builtin_proc args).result = .ret 1 ∨ (builtin_proc args).result = .undefined ∨
      (builtin_proc args).result = .timeout) ∧
    ((builtin_proc args).trace = [] ∨ (builtin_proc args).trace = [.procUsage] ∨
      (builtin_proc args).trace = [.unsupportedFile] ∨
      ∃ path, (builtin_proc args).trace = [.dumpFile path]) := by
  unfold builtin_proc
  split
  · simp [builtin_proc_err]
  · dsimp only
    split
    · split
      · split <;> simp
      · simp
      · simp
    · split
      · split <;> simp
      · simp

/-- What `execute` can do: it returns 1 or stays blocked in the wait. -/
theorem execute_shape (args : List CStr) (w : Spawn) :
    ((execute args w).result = .ret 1 ∨ (execute args w).result = .blocked) ∧
    Event.freeInput ∉ (execute args w).trace := by
  unfold execute
  cases w with
  | forkFails => simp
  | forked statuses =>
    dsimp only
    cases wait_loop statuses <;> simp

/-- What `builtin_exit` can do: it returns 0 exactly when there is no argument, and it ends the
process only with one argument that `strtol` converts up to its end. -/
theorem builtin_exit_shape (a0 : CStr) (rest : List CStr) :
    ((builtin_exit (a0 :: rest)).result = .ret 0 ↔ rest = []) ∧
    (∀ v, (builtin_exit (a0 :: rest)).result = .ret v → v = 0 ∨ v = 1) ∧
    (∀ n, (builtin_exit (a0 :: rest)).result = .exit n →
      ∃ a, rest = [a] ∧ (strtol a).2 = [] ∧ n = long_to_int (strtol a).1) ∧
    (builtin_exit (a0 :: rest)).result ≠ .undefined ∧
    (builtin_exit (a0 :: rest)).result ≠ .blocked ∧
    (builtin_exit (a0 :: rest)).result ≠ .timeout ∧
    Event.freeInput ∉ (builtin_exit (a0 :: rest)).trace := by
  cases rest with
  | nil => simp [builtin_exit]
  | cons a rest1 =>
    cases rest1 with
    | nil =>
      by_cases h : (strtol a).2 = []
      · simp [builtin_exit, h]
      · simp [builtin_exit, h]
    | cons b rest2 => simp [builtin_exit]

/-! ## C19: the wait loop of `execute` -/

theorem load_trace_no_free (args : List CStr) (w : Spawn) :
    Event.freeInput ∉ (load args w).trace := by
  cases args with
  | nil => simp [load]
  | cons a0 rest =>
    rw [load_cons]
    split
    · exact (builtin_exit_shape a0 rest).2.2.2.2.2.2
    · split
      · rcases (builtin_proc_shape (a0 :: rest)).2 with h | h | h | ⟨path, h⟩ <;> simp [h]
      · exact (execute_shape (a0 :: rest) w).2

/-- After a line that is not blank the trace of `shell_loop` is not the one of the blank
exit. -/
theorem shell_loop_nonblank (unescape : CStr → Option CStr) (line : CStr) (w : Spawn)
    (rest : List (CStr × Spawn)) (he : is_empty line = false) :
    (shell_loop unescape ((line, w) :: rest)).1 ≠ [.prompt, .freeInput] := by
  have hfree := fun args => load_trace_no_free args w
  have h1 : ∀ (tr : List Event), Event.freeInput ∉ tr → Event.prompt :: tr ≠ [.prompt, .freeInput] := by
    intro tr htr heq
    simp only [List.cons.injEq, true_and] at heq
    rw [heq] at htr
    simp at htr
  have h2 : ∀ (tr x : List Event),
      Event.prompt :: tr ++ Event.cleanMem :: x ≠ [.prompt, .freeInput] := by
    intro tr x heq
    have hm : Event.cleanMem ∈ Event.prompt :: tr ++ Event.cleanMem :: x := by simp
    rw [heq] at hm
    simp at hm
  unfold shell_loop
  rw [he]
  simp only [Bool.false_eq_true, if_false]
  cases split_line unescape line with
  | undefined => simp
  | timeout => simp
  | ok args =>
    dsimp only
    cases hres : (load args w).result with
    | ret status =>
      dsimp only
      split
      · exact h2 _ _
      · exact h2 _ _
    | exit status => exact h1 _ (hfree args)
    | undefined => exact h1 _ (hfree args)
    | blocked => exact h1 _ (hfree args)
    | timeout => exact h1 _ (hfree args)

theorem is_empty_iff (line : CStr) :
    is_empty line = true ↔
      ∀ c ∈ line, c ∈ [' ', '\t', '\n', Char.ofNat 11, Char.ofNat 12, '\r'] := by
  induction line with
  | nil => simp [is_empty]
  | cons a l ih =>
    by_cases ha : isspace a = true
    · have ha1 : a ∈ [' ', '\t', '\n', Char.ofNat 11, Char.ofNat 12, '\r'] := by
        simp only [isspace, Bool.or_eq_true, beq_iff_eq] at ha
        simp only [List.mem_cons, List.mem_singleton, List.not_mem_nil, or_false]
        tauto
      simp only [is_empty, ha, Bool.not_true, Bool.false_eq_true, if_false, ih,
        List.forall_mem_cons, ha1, true_and]
    · have ha1 : a ∉ [' ', '\t', '\n', Char.ofNat 11, Char.ofNat 12, '\r'] := by
        simp only [isspace, Bool.or_eq_true, beq_iff_eq] at ha
        simp only [List.mem_cons, List.mem_singleton, List.not_mem_nil, or_false]
        tauto
      simp only [is_empty, ha, Bool.not_false, if_true, List.forall_mem_cons, ha1, false_and]
      simp

/-- C13: on every line, `shell_loop` frees the line and ends the program with `exit(1)`,
before `split_line` and `load`, exactly when `is_empty` holds of the line; and `is_empty` holds
exactly when the line is empty or all its characters are among space, tab, newline, vertical
tab, form feed and carriage return. -/
theorem blank_line_exit (unescape : CStr → Option CStr) (line : CStr) (w : Spawn)
    (rest : List (CStr × Spawn)) :
    (shell_loop unescape ((line, w) :: rest) = ([.prompt, .freeInput], .exit 1) ↔
      is_empty line = true) ∧
    (is_empty line = true ↔
      line = [] ∨ ∀ c ∈ line, c ∈ [' ', '\t', '\n', Char.ofNat 11, Char.ofNat 12, '\r']) := by
  constructor
  · constructor
    · intro heq
      by_contra hne
      have he : is_empty line = false := by simpa using hne
      exact shell_loop_nonblank unescape line w rest he (by rw [heq])
    · intro he
      simp [shell_loop, he]
  · rw [is_empty_iff]
    constructor
    · exact fun h => Or.inr h
    · rintro (rfl | h)
      · simp
      · exact h

/-- A character outside the delimiters gives the string a token. -/
theorem maximal_runs_ne_nil_of_mem (delim : List Char) (s : CStr) (c : Char) (hc : c ∈ s)
    (hd : c ∉ delim) : maximal_runs delim s ≠ [] := by
  rcases token_shape delim s with hall | ⟨sk, tok, rfl, hsk, hne, htok⟩ |
    ⟨sk, tok, d, r, rfl, hsk, hne, htok, hd1⟩
  · exact absurd (hall c hc) hd
  · rw [maximal_runs_skip delim sk tok hsk, maximal_runs_last delim tok hne htok]
    simp
  · rw [List.append_assoc, maximal_runs_skip delim sk _ hsk,
      maximal_runs_mid delim tok d r hne htok hd1]
    simp

/-- A line without a bell that passes the blank check has a token. -/
theorem nonblank_has_token (line : CStr) (hbell : Char.ofNat 7 ∉ line)
    (he : is_empty line = false) : maximal_runs ARG_DELIM line ≠ [] := by
  have h1 : ¬ ∀ c ∈ line, c ∈ [' ', '\t', '\n', Char.ofNat 11, Char.ofNat 12, '\r'] := by
    rw [← is_empty_iff]
    simp [he]
  push_neg at h1
  obtain ⟨c, hc, hns⟩ := h1
  apply maximal_runs_ne_nil_of_mem ARG_DELIM line c hc
  intro hd
  have hcb : c ≠ Char.ofNat 7 := fun h => hbell (h ▸ hc)
  simp only [ARG_DELIM, List.mem_cons, List.mem_singleton, List.not_mem_nil, or_false] at hd hns
  rcases hd with h | h | h | h | h
  · exact hns (Or.inl h)
  · exact hns (Or.inr (Or.inl h))
  · exact hns (Or.inr (Or.inr (Or.inr (Or.inr (Or.inr h)))))
  · exact hns (Or.inr (Or.inr (Or.inl h)))
  · exact hcb h

/-- C17: the line of a bell and a newline is not blank for `is_empty`, since the bell is no
space, yet it holds delimiters only: the tokenizer stores no pointer, `args[0]` is `NULL`, and
`split_line` passes it to `strcmp`. -/
theorem bell_line_no_token :
    is_empty [Char.ofNat 7, '\n'] = false ∧
    tokenize ARG_DELIM true (cmem [Char.ofNat 7, '\n'])
      = .ok ⟨[Char.ofNat 7, '\n', NUL], [], 64⟩ ∧
    split_line (fun _ => none) [Char.ofNat 7, '\n'] = .undefined ∧
    shell_loop (fun _ => none) [([Char.ofNat 7, '\n'], .forkFails)]
      = ([.prompt], .undefined) := by
  refine ⟨by decide, by decide, by decide, by decide⟩

/-! ## C11: when a command cycle stops the session -/

/-- With growth, from a capacity that is the next multiple of 64 above the number of stored
pointers, `k` more stores are all in bounds and leave the capacity at the next multiple of 64
above the new number. -/
theorem run_buf_capacity : ∀ (k len : Nat),
    run_buf true k len (64 * (len / 64 + 1)) = some (64 * ((len + k) / 64 + 1)) := by
  intro k
  induction k with
  | zero => intro len; rfl
  | succ k ih =>
    intro len
    have h1 : len < 64 * (len / 64 + 1) := by omega
    have h2 : (if true && decide (len + 1 ≥ 64 * (len / 64 + 1)) then 64 * (len / 64 + 1) + BUFSIZE
        else 64 * (len / 64 + 1)) = 64 * ((len + 1) / 64 + 1) := by
      by_cases hc : len + 1 ≥ 64 * (len / 64 + 1)
      · simp only [Bool.true_and, hc, decide_True, if_true, BUFSIZE]
        omega
      · simp only [Bool.true_and, hc, decide_False, Bool.false_eq_true, if_false]
        omega
    simp only [run_buf, h1, if_true]
    rw [h2, ih (len + 1)]
    congr 2
    omega

/-- C18: for every line (a C string), with `n` its number of tokens, the tokenizing loop of
`split_line` ends without any store out of bounds, the final `NULL` store included; the
capacity ends at `64 * (n / 64 + 1)`, above `n`; the `n` pointers read as the tokens of the
line in order; and after each number `k` of stores up to `n` the capacity is
`64 * (k / 64 + 1)`, above the index `k`. -/
theorem split_line_capacity (line : CStr) (hnul : ∀ c ∈ line, c ≠ NUL) :
    ∃ (mem : List Char) (ptrs : List Nat),
      tokenize ARG_DELIM true (cmem line)
        = .ok ⟨mem, ptrs, BUFSIZE * ((maximal_runs ARG_DELIM line).length / BUFSIZE + 1)⟩ ∧
      ptrs.length = (maximal_runs ARG_DELIM line).length ∧
      ptrs.length < BUFSIZE * ((maximal_runs ARG_DELIM line).length / BUFSIZE + 1) ∧
      ptrs.map (cstrAt mem) = maximal_runs ARG_DELIM line ∧
      ∀ k, k ≤ (maximal_runs ARG_DELIM line).length →
        run_buf true k 0 BUFSIZE = some (BUFSIZE * (k / BUFSIZE + 1)) ∧
        k < BUFSIZE * (k / BUFSIZE + 1) := by
  obtain ⟨mem, ptrs, _, hmap, hrun⟩ := tokenize_run ARG_DELIM true line hnul
  have hl : ptrs.length = (maximal_runs ARG_DELIM line).length := by
    rw [← hmap, List.length_map]
  have hcap : ∀ k, run_buf true k 0 BUFSIZE = some (BUFSIZE * (k / BUFSIZE + 1)) := by
    intro k
    have := run_buf_capacity k 0
    simpa [BUFSIZE] using this
  have hlt : ∀ k, k < BUFSIZE * (k / BUFSIZE + 1) := by
    intro k
    simp only [BUFSIZE]
    omega
  refine ⟨mem, ptrs, ?_, hl, ?_, hmap, fun k _ => ⟨hcap k, hlt k⟩⟩
  · rw [hrun, hcap]
    simp only
    rw [if_pos (by rw [hl]; exact hlt _)]
  · rw [hl]
    exact hlt _

set_option maxRecDepth 100000 in
/-- C18 at a line of 64 tokens, where the array grows once, with the capacities after 63, 64,
65 and 128 stores. -/
theorem split_line_capacity_witness :
    (∀ c ∈ (List.replicate 64 ['a', ' ']).flatten, c ≠ NUL) ∧
    (maximal_runs ARG_DELIM (List.replicate 64 ['a', ' ']).flatten).length = 64 ∧
    run_buf true 63 0 BUFSIZE = some 64 ∧
    run_buf true 64 0 BUFSIZE = some 128 ∧
    run_buf true 65 0 BUFSIZE = some 128 ∧
    run_buf true 128 0 BUFSIZE = some 192 ∧
    ∃ (mem : List Char) (ptrs : List Nat),
      tokenize ARG_DELIM true (cmem (List.replicate 64 ['a', ' ']).flatten)
        = .ok ⟨mem, ptrs, BUFSIZE *
          ((maximal_runs ARG_DELIM (List.replicate 64 ['a', ' ']).flatten).length / BUFSIZE
            + 1)⟩ ∧
      ptrs.length = (maximal_runs ARG_DELIM (List.replicate 64 ['a', ' ']).flatten).length ∧
      ptrs.length < BUFSIZE *
        ((maximal_runs ARG_DELIM (List.replicate 64 ['a', ' ']).flatten).length / BUFSIZE + 1) ∧
      ptrs.map (cstrAt mem) = maximal_runs ARG_DELIM (List.replicate 64 ['a', ' ']).flatten ∧
      ∀ k, k ≤ (maximal_runs ARG_DELIM (List.replicate 64 ['a', ' ']).flatten).length →
        run_buf true k 0 BUFSIZE = some (BUFSIZE * (k / BUFSIZE + 1)) ∧
        k < BUFSIZE * (k / BUFSIZE + 1) :=
  ⟨by decide, by decide, by decide, by decide, by decide, by decide,
    split_line_capacity (List.replicate 64 ['a', ' ']).flatten (by decide)⟩

/-! ## C12: round trip of the tokenizer -/

/-- On a line with a token, when the first token is not `echo` or `unescape` answers `NULL` for
every argument, `split_line` returns the maximal runs. -/
theorem split_line_runs (unescape : CStr → Option CStr) (line : CStr)
    (hnul : ∀ c ∈ line, c ≠ NUL) (hne : maximal_runs ARG_DELIM line ≠ [])
    (hecho : (maximal_runs ARG_DELIM line).head? ≠ some ECHO ∨
      ∀ t ∈ (maximal_runs ARG_DELIM line).tail, unescape t = none) :
    split_line unescape line = .ok (maximal_runs ARG_DELIM line) := by
  obtain ⟨mem, ptrs, b, _, hmap, _, htk⟩ := tokenize_split line hnul
  unfold split_line
  rw [htk]
  cases ptrs with
  | nil => exact absurd hmap.symm hne
  | cons p0 ps =>
    dsimp only
    rw [← hmap] at hecho
    by_cases hE : cstrAt mem p0 = ECHO
    · have hall : ∀ p ∈ ps, unescape (cstrAt mem p) = none := by
        rcases hecho with h | h
        · exact absurd (by simp [hE]) h
        · intro p hp
          exact h _ (by simpa using ⟨p, hp, rfl⟩)
      rw [if_pos (by simpa using hE), unescape_loop_none unescape mem ps hall]
      dsimp only
      rw [hmap]
    · rw [if_neg (by simpa using hE), hmap]

/-- The runs of a joined line are the tokens that were joined. -/
theorem maximal_runs_join (delim : List Char) :
    ∀ (ps : List (CStr × List Char)) (lead : List Char),
      (∀ c ∈ lead, c ∈ delim) →
      (∀ p ∈ ps, p.1 ≠ [] ∧ ∀ c ∈ p.1, c ∉ delim) →
      (∀ p ∈ ps, ∀ c ∈ p.2, c ∈ delim) →
      (∀ p ∈ ps.dropLast, p.2 ≠ []) →
      maximal_runs delim (join_tokens lead ps) = ps.map (fun p => p.1) := by
  intro ps
  induction ps with
  | nil =>
    intro lead hlead _ _ _
    simp only [join_tokens, List.map_nil, List.flatten_nil, List.append_nil]
    exact maximal_runs_all_delim delim lead hlead
  | cons p ps ih =>
    intro lead hlead htok hsep hmid
    obtain ⟨t, sp⟩ := p
    have ht := htok (t, sp) (List.mem_cons_self _ _)
    have hs := hsep (t, sp) (List.mem_cons_self _ _)
    have hform : join_tokens lead ((t, sp) :: ps) = lead ++ (t ++ join_tokens sp ps) := by
      simp [join_tokens]
    rw [hform, maximal_runs_skip delim lead _ hlead]
    cases hsp : sp with
    | nil =>
      have hps : ps = [] := by
        cases ps with
        | nil => rfl
        | cons q qs =>
          exfalso
          exact hmid (t, sp) (by simp [List.dropLast]) hsp
      subst hps
      simp only [join_tokens, List.map_nil, List.flatten_nil, List.append_nil, List.map_cons]
      exact maximal_runs_last delim t ht.1 ht.2
    | cons d sp1 =>
      rw [hsp] at hs
      have hd : d ∈ delim := hs d (List.mem_cons_self _ _)
      have hform2 : t ++ join_tokens (d :: sp1) ps = t ++ d :: join_tokens sp1 ps := by
        simp [join_tokens]
      rw [hform2, maximal_runs_mid delim t d _ ht.1 ht.2 hd]
      rw [ih sp1 (fun c hc => hs c (List.mem_cons_of_mem _ hc))
        (fun q hq => htok q (List.mem_cons_of_mem _ hq))
        (fun q hq => hsep q (List.mem_cons_of_mem _ hq))
        (fun q hq => hmid q (by
          cases ps with
          | nil => simp at hq
          | cons r rs => simp only [List.dropLast_cons₂]; exact List.mem_cons_of_mem _ hq))]
      simp

/-- The runs of tokens joined by one delimiter each are these tokens. -/
theorem maximal_runs_intercalate (delim : List Char) (d : Char) (hd : d ∈ delim) :
    ∀ (ts : List CStr), (∀ t ∈ ts, t ≠ [] ∧ ∀ c ∈ t, c ∉ delim) →
      maximal_runs delim (List.intercalate [d] ts) = ts := by
  intro ts
  induction ts with
  | nil => intro _; simp [List.intercalate, maximal_runs_nil]
  | cons t ts ih =>
    intro h
    have ht := h t (List.mem_cons_self _ _)
    cases ts with
    | nil =>
      simp only [List.intercalate, List.intersperse, List.flatten_cons, List.flatten_nil,
        List.append_nil]
      exact maximal_runs_last delim t ht.1 ht.2
    | cons t1 ts1 =>
      have hform : List.intercalate [d] (t :: t1 :: ts1)
          = t ++ d :: List.intercalate [d] (t1 :: ts1) := by
        simp [List.intercalate, List.intersperse]
      rw [hform, maximal_runs_mid delim t d _ ht.1 ht.2 hd,
        ih (fun q hq => h q (List.mem_cons_of_mem _ hq))]

theorem mem_intercalate (d : Char) : ∀ (ts : List CStr) (c : Char),
    c ∈ List.intercalate [d] ts → c = d ∨ ∃ t ∈ ts, c ∈ t := by
  intro ts
  induction ts with
  | nil => intro c hc; simp [List.intercalate] at hc
  | cons t ts ih =>
    intro c hc
    cases ts with
    | nil =>
      simp only [List.intercalate, List.intersperse, List.flatten_cons, List.flatten_nil,
        List.append_nil] at hc
      exact Or.inr ⟨t, List.mem_cons_self _ _, hc⟩
    | cons t1 ts1 =>
      have hform : List.intercalate [d] (t :: t1 :: ts1)
          = t ++ d :: List.intercalate [d] (t1 :: ts1) := by
        simp [List.intercalate, List.intersperse]
      rw [hform] at hc
      rcases List.mem_append.mp hc with h | h
      · exact Or.inr ⟨t, List.mem_cons_self _ _, h⟩
      · rcases List.mem_cons.mp h with h | h
        · exact Or.inl h
        · rcases ih c h with h1 | ⟨q, hq, hcq⟩
          · exact Or.inl h1
          · exact Or.inr ⟨q, List.mem_cons_of_mem _ hq, hcq⟩

/-- C12, as stated, fails on `echo` lines: the tokens `echo` and `a\tb` (backslash, t) joined
by one space come back with the second one decoded to hold a tab; and that output joined by
single spaces splits into three tokens. -/
theorem split_line_round_trip_fails_on_echo :
    split_line (fun t => if t = ['a', '\\', 't', 'b'] then some ['a', '\t', 'b'] else none)
        (List.intercalate [' '] [['e', 'c', 'h', 'o'], ['a', '\\', 't', 'b']])
      = .ok [['e', 'c', 'h', 'o'], ['a', '\t', 'b']] ∧
    split_line (fun t => if t = ['a', '\\', 't', 'b'] then some ['a', '\t', 'b'] else none)
        (List.intercalate [' '] [['e', 'c', 'h', 'o'], ['a', '\t', 'b']])
      = .ok [['e', 'c', 'h', 'o'], ['a'], ['b']] := by
  refine ⟨by decide, by decide⟩

/-- C12, amended: for every non-empty list of tokens (non-empty, free of delimiters and of
NUL), joined with one or more delimiters between neighbours and any delimiters before the
first and after the last, `split_line` of the joined line returns exactly these tokens, and so
does `split_line` of the tokens joined by single spaces; this when the first token is not
`echo` or `unescape` leaves the arguments alone. -/
theorem split_line_round_trip (unescape : CStr → Option CStr) (lead : List Char)
    (ps : List (CStr × List Char)) (hne : ps ≠ [])
    (hlead : ∀ c ∈ lead, c ∈ ARG_DELIM)
    (htok : ∀ p ∈ ps, p.1 ≠ [] ∧ ∀ c ∈ p.1, c ∉ ARG_DELIM ∧ c ≠ NUL)
    (hsep : ∀ p ∈ ps, ∀ c ∈ p.2, c ∈ ARG_DELIM)
    (hmid : ∀ p ∈ ps.dropLast, p.2 ≠ [])
    (hecho : (ps.map (fun p => p.1)).head? ≠ some ECHO ∨
      ∀ t ∈ (ps.map (fun p => p.1)).tail, unescape t = none) :
    split_line unescape (join_tokens lead ps) = .ok (ps.map (fun p => p.1)) ∧
    split_line unescape (List.intercalate [' '] (ps.map (fun p => p.1)))
      = .ok (ps.map (fun p => p.1)) := by
  have hd : ∀ c ∈ ARG_DELIM, c ≠ NUL := by decide
  have htok1 : ∀ p ∈ ps, p.1 ≠ [] ∧ ∀ c ∈ p.1, c ∉ ARG_DELIM :=
    fun p hp => ⟨(htok p hp).1, fun c hc => ((htok p hp).2 c hc).1⟩
  have hr1 : maximal_runs ARG_DELIM (join_tokens lead ps) = ps.map (fun p => p.1) :=
    maximal_runs_join ARG_DELIM ps lead hlead htok1 hsep hmid
  have hr2 : maximal_runs ARG_DELIM (List.intercalate [' '] (ps.map (fun p => p.1)))
      = ps.map (fun p => p.1) := by
    apply maximal_runs_intercalate ARG_DELIM ' ' (by decide)
    intro t ht
    obtain ⟨p, hp, rfl⟩ := List.mem_map.mp ht
    exact htok1 p hp
  have hmapne : ps.map (fun p => p.1) ≠ [] := by
    simpa using hne
  have hn1 : ∀ c ∈ join_tokens lead ps, c ≠ NUL := by
    intro c hc
    simp only [join_tokens, List.mem_append, List.mem_flatten, List.mem_map] at hc
    rcases hc with h | ⟨l, ⟨p, hp, rfl⟩, hcl⟩
    · exact hd c (hlead c h)
    · rcases List.mem_append.mp hcl with h | h
      · exact ((htok p hp).2 c h).2
      · exact hd c (hsep p hp c h)
  have hn2 : ∀ c ∈ List.intercalate [' '] (ps.map (fun p => p.1)), c ≠ NUL := by
    intro c hc
    rcases mem_intercalate ' ' _ c hc with h | ⟨t, ht, hct⟩
    · rw [h]; decide
    · obtain ⟨p, hp, rfl⟩ := List.mem_map.mp ht
      exact ((htok p hp).2 c hct).2
  constructor
  · have := split_line_runs unescape (join_tokens lead ps) hn1 (by rw [hr1]; exact hmapne)
      (by rw [hr1]; exact hecho)
    rw [this, hr1]
  · have := split_line_runs unescape (List.intercalate [' '] (ps.map (fun p => p.1))) hn2
      (by rw [hr2]; exact hmapne) (by rw [hr2]; exact hecho)
    rw [this, hr2]

/-- C12, amended, at the tokens `ls` and `-la`, with a leading space, a space and a tab between
them, and the newline at the end. -/
theorem split_line_round_trip_witness :
    ([(['l', 's'], [' ', '\t']), (['-', 'l', 'a'], ['\n'])] : List (CStr × List Char)) ≠ [] ∧
    (∀ c ∈ [' '], c ∈ ARG_DELIM) ∧
    (∀ p ∈ ([(['l', 's'], [' ', '\t']), (['-', 'l', 'a'], ['\n'])] : List (CStr × List Char)),
      p.1 ≠ [] ∧ ∀ c ∈ p.1, c ∉ ARG_DELIM ∧ c ≠ NUL) ∧
    join_tokens [' '] [(['l', 's'], [' ', '\t']), (['-', 'l', 'a'], ['\n'])]
      = [' ', 'l', 's', ' ', '\t', '-', 'l', 'a', '\n'] ∧
    split_line (fun _ => none)
        (join_tokens [' '] [(['l', 's'], [' ', '\t']), (['-', 'l', 'a'], ['\n'])])
      = .ok ([(['l', 's'], [' ', '\t']), (['-', 'l', 'a'], ['\n'])].map (fun p => p.1)) ∧
    split_line (fun _ => none) (List.intercalate [' ']
        ([(['l', 's'], [' ', '\t']), (['-', 'l', 'a'], ['\n'])].map (fun p => p.1)))
      = .ok ([(['l', 's'], [' ', '\t']), (['-', 'l', 'a'], ['\n'])].map (fun p => p.1)) :=
  ⟨by decide, by decide, by decide, by decide,
    split_line_round_trip (fun _ => none) [' ']
      [(['l', 's'], [' ', '\t']), (['-', 'l', 'a'], ['\n'])]
      (by decide) (by decide) (by decide) (by decide) (by decide) (Or.inl (by decide))⟩

/-! ## C14: more than two segments in the argument of `proc` -/

/-- With at least two and fewer than 64 segments, and the path fitting `file_path`,
`builtin_proc` dumps the path made of the first two segments and returns 1. -/
theorem builtin_proc_segments (a s1 s2 : CStr) (more : List CStr)
    (hnul : ∀ c ∈ a, c ≠ NUL) (hslash : '/' ∈ a)
    (hruns : maximal_runs ['/'] a = s1 :: s2 :: more)
    (hcount : more.length + 2 < BUFSIZE)
    (hfit : (PROC_ROOT ++ s1 ++ '/' :: s2).length + 1 ≤ PATH_SIZE) :
    (builtin_proc [['p', 'r', 'o', 'c'], a]).trace
      = [.dumpFile (PROC_ROOT ++ s1 ++ '/' :: s2)] ∧
    (builtin_proc [['p', 'r', 'o', 'c'], a]).result = .ret 1 := by
  obtain ⟨mem, ptrs, _, hmap, hrun⟩ := tokenize_run ['/'] false a hnul
  have hl : ptrs.length = more.length + 2 := by
    have := congrArg List.length hmap
    rw [hruns] at this
    simpa using this
  have hbuf : run_buf false (maximal_runs ['/'] a).length 0 BUFSIZE = some BUFSIZE := by
    apply run_buf_fixed
    rw [hruns]
    simp only [List.length_cons]
    omega
  rw [hbuf] at hrun
  simp only at hrun
  rw [if_pos (by omega)] at hrun
  rw [hruns] at hmap
  obtain ⟨p0, ps0, rfl⟩ : ∃ p0 ps0, ptrs = p0 :: ps0 := by
    cases ptrs with
    | nil => simp at hmap
    | cons p0 ps0 => exact ⟨p0, ps0, rfl⟩
  obtain ⟨p1, ps1, rfl⟩ : ∃ p1 ps1, ps0 = p1 :: ps1 := by
    cases ps0 with
    | nil => simp at hmap
    | cons p1 ps1 => exact ⟨p1, ps1, rfl⟩
  simp only [List.map_cons, List.cons.injEq] at hmap
  obtain ⟨r0, r1, _⟩ := hmap
  have hany : a.any (fun c => c == '/') = true := by
    rw [List.any_eq_true]
    exact ⟨'/', hslash, by simp⟩
  have hlen : PROC_ROOT.length = 6 := rfl
  simp only [List.length_append, List.length_cons, hlen, PATH_SIZE] at hfit
  have c0 : path_strcpy PROC_ROOT = some PROC_ROOT := by decide
  have c1 : path_strcat PROC_ROOT (some s1) = some (PROC_ROOT ++ s1) := by
    simp only [path_strcat, hlen, PATH_SIZE]
    rw [if_pos (by omega)]
  have c2 : path_strcat (PROC_ROOT ++ s1) (some ['/']) = some (PROC_ROOT ++ s1 ++ ['/']) := by
    simp only [path_strcat, hlen, PATH_SIZE, List.length_append, List.length_singleton]
    rw [if_pos (by omega)]
  have c3 : path_strcat (PROC_ROOT ++ s1 ++ ['/']) (some s2)
      = some (PROC_ROOT ++ s1 ++ ['/'] ++ s2) := by
    simp only [path_strcat, hlen, PATH_SIZE, List.length_append, List.length_singleton]
    rw [if_pos (by omega)]
  unfold builtin_proc
  simp only [List.length_cons, List.length_nil, ne_eq, not_true_eq_false, if_false,
    List.getD_cons_succ, List.getD_cons_zero, hany, if_true, hrun]
  simp only [List.get?_cons_zero, List.get?_cons_succ, Option.map_some', r0, r1]
  simp only [c0, Option.some_bind, c1, c2, c3]
  simp

set_option maxRecDepth 100000 in
/-- C14: on `proc 1/1/.../1` with 70 segments the path `/proc/1/1` would fit, yet the 70
pointers do not fit the 64 slots of `tokens`, which `builtin_proc` never grows: the stores
from the 65th on are out of bounds, undefined behaviour where the claim asks for the path. -/
theorem builtin_proc_many_segments :
    (maximal_runs ['/'] (List.intercalate ['/'] (List.replicate 70 ['1']))).length = 70 ∧
    (PROC_ROOT ++ ['1'] ++ '/' :: ['1']).length + 1 ≤ PATH_SIZE ∧
    (builtin_proc [['p', 'r', 'o', 'c'],
      List.intercalate ['/'] (List.replicate 70 ['1'])]).result = .undefined := by
  refine ⟨by decide, by decide, by decide⟩

/-! ## C15: `proc` twice -/

/-- For an argument without `/`, `builtin_proc` leaves the argument vector as it was. -/
theorem builtin_proc_args_global (name : CStr) (hs : '/' ∉ name) :
    (builtin_proc [['p', 'r', 'o', 'c'], name]).args = [['p', 'r', 'o', 'c'], name] := by
  have hany : name.any (fun c => c == '/') = false := by
    rw [List.any_eq_false]
    intro x hx
    simp only [beq_iff_eq]
    rintro rfl
    exact hs hx
  unfold builtin_proc
  simp only [List.length_cons, List.length_nil, ne_eq, not_true_eq_false, if_false,
    List.getD_cons_succ, List.getD_cons_zero, hany, Bool.false_eq_true]
  split
  · split <;> rfl
  · rfl

/-- C15, as stated, fails: `builtin_proc` on `proc 1/status` dumps `/proc/1/status` and leaves
`args[1]` reading `1`, the `/` overwritten by `strtok`; run again on that same vector it takes
the branch without `/` and reports an unsupported file. -/
theorem builtin_proc_twice_differs :
    builtin_proc [['p', 'r', 'o', 'c'], ['1', '/', 's', 't', 'a', 't', 'u', 's']]
      = ⟨[.dumpFile ['/', 'p', 'r', 'o', 'c', '/', '1', '/', 's', 't', 'a', 't', 'u', 's']],
          .ret 1, [['p', 'r', 'o', 'c'], ['1']]⟩ ∧
    builtin_proc
        (builtin_proc [['p', 'r', 'o', 'c'], ['1', '/', 's', 't', 'a', 't', 'u', 's']]).args
      = ⟨[.unsupportedFile], .ret 1, [['p', 'r', 'o', 'c'], ['1']]⟩ := by
  refine ⟨by decide, by decide⟩

/-- C15, amended: a `proc` command that returns, given as two input lines, makes `shell_loop`
do the same thing in both cycles, each line being tokenized afresh and nothing kept between
the cycles; and for an argument without `/` a call of `builtin_proc` leaves the argument vector
as it was, so that a second call on the same vector gives the same path and result. -/
theorem proc_twice (unescape : CStr → Option CStr) (line a : CStr) (w1 w2 : Spawn)
    (rest : List (CStr × Spawn))
    (hline : is_empty line = false)
    (hsplit : split_line unescape line = .ok [['p', 'r', 'o', 'c'], a])
    (hret : (builtin_proc [['p', 'r', 'o', 'c'], a]).result = .ret 1) :
    shell_loop unescape ((line, w1) :: (line, w2) :: rest)
      = (.prompt :: (builtin_proc [['p', 'r', 'o', 'c'], a]).trace ++ .cleanMem ::
          .prompt :: (builtin_proc [['p', 'r', 'o', 'c'], a]).trace ++ .cleanMem ::
          (shell_loop unescape rest).1, (shell_loop unescape rest).2) ∧
    ('/' ∉ a →
      (builtin_proc [['p', 'r', 'o', 'c'], a]).args = [['p', 'r', 'o', 'c'], a] ∧
      builtin_proc (builtin_proc [['p', 'r', 'o', 'c'], a]).args
        = builtin_proc [['p', 'r', 'o', 'c'], a]) := by
  have hload : ∀ w, load [['p', 'r', 'o', 'c'], a] w = builtin_proc [['p', 'r', 'o', 'c'], a] := by
    intro w
    rw [load_cons]
    simp
  have hstep : ∀ (w : Spawn) (more : List (CStr × Spawn)),
      shell_loop unescape ((line, w) :: more)
        = (.prompt :: (builtin_proc [['p', 'r', 'o', 'c'], a]).trace ++ .cleanMem ::
            (shell_loop unescape more).1, (shell_loop unescape more).2) := by
    intro w more
    rw [shell_loop]
    simp only [hline, Bool.false_eq_true, if_false, hsplit, hload, hret]
    simp
  constructor
  · rw [hstep w1, hstep w2]
    simp
  · intro hs
    have h1 := builtin_proc_args_global a hs
    exact ⟨h1, by rw [h1]⟩

/-- C15, amended, at the line `proc cpuinfo` read twice. -/
theorem proc_twice_witness :
    is_empty ['p', 'r', 'o', 'c', ' ', 'c', 'p', 'u', 'i', 'n', 'f', 'o', '\n'] = false ∧
    split_line (fun _ => none) ['p', 'r', 'o', 'c', ' ', 'c', 'p', 'u', 'i', 'n', 'f', 'o', '\n']
      = .ok [['p', 'r', 'o', 'c'], ['c', 'p', 'u', 'i', 'n', 'f', 'o']] ∧
    (builtin_proc [['p', 'r', 'o', 'c'], ['c', 'p', 'u', 'i', 'n', 'f', 'o']]).result = .ret 1 ∧
    '/' ∉ ['c', 'p', 'u', 'i', 'n', 'f', 'o'] ∧
    shell_loop (fun _ => none)
        ((['p', 'r', 'o', 'c', ' ', 'c', 'p', 'u', 'i', 'n', 'f', 'o', '\n'], Spawn.forkFails) ::
          (['p', 'r', 'o', 'c', ' ', 'c', 'p', 'u', 'i', 'n', 'f', 'o', '\n'], Spawn.forkFails) ::
          [])
      = (.prompt :: (builtin_proc [['p', 'r', 'o', 'c'],
            ['c', 'p', 'u', 'i', 'n', 'f', 'o']]).trace ++ .cleanMem ::
          .prompt :: (builtin_proc [['p', 'r', 'o', 'c'],
            ['c', 'p', 'u', 'i', 'n', 'f', 'o']]).trace ++ .cleanMem ::
          (shell_loop (fun _ => none) []).1, (shell_loop (fun _ => none) []).2) ∧
    (builtin_proc [['p', 'r', 'o', 'c'], ['c', 'p', 'u', 'i', 'n', 'f', 'o']]).args
      = [['p', 'r', 'o', 'c'], ['c', 'p', 'u', 'i', 'n', 'f', 'o']] ∧
    builtin_proc (builtin_proc [['p', 'r', 'o', 'c'], ['c', 'p', 'u', 'i', 'n', 'f', 'o']]).args
      = builtin_proc [['p', 'r', 'o', 'c'], ['c', 'p', 'u', 'i', 'n', 'f', 'o']] :=
  ⟨by decide, by decide, by decide, by decide,
    (proc_twice (fun _ => none)
      ['p', 'r', 'o', 'c', ' ', 'c', 'p', 'u', 'i', 'n', 'f', 'o', '\n']
      ['c', 'p', 'u', 'i', 'n', 'f', 'o'] .forkFails .forkFails [] (by decide) (by decide)
      (by decide)).1,
    (proc_twice (fun _ => none)
      ['p', 'r', 'o', 'c', ' ', 'c', 'p', 'u', 'i', 'n', 'f', 'o', '\n']
      ['c', 'p', 'u', 'i', 'n', 'f', 'o'] .forkFails .forkFails [] (by decide) (by decide)
      (by decide)).2 (by decide)⟩

/-! ## C16: unescaping of the arguments of `echo` -/

/-- The tokenizing loop again, with the shape of the buffer it leaves: tokens laid out one
after the other, each followed by a terminator, and the pointers at their starts. -/
theorem tok_loop_layout (delim : List Char) (grow : Bool) :
    ∀ (n : Nat) (rest : List Char), rest.length ≤ n → (∀ c ∈ rest, c ≠ NUL) →
    ∀ (done : List Char) (ptrs : List Nat) (bufsize fuel : Nat), rest.length < fuel →
    ∃ (segs : List (List Char × CStr)) (trailing : List Char),
      segs.map (fun g => g.2) = maximal_runs delim rest ∧
      (∀ g ∈ segs, ∀ c ∈ g.2, c ≠ NUL) ∧
      tok_loop delim grow fuel (strtok (done ++ rest ++ [NUL]) done.length delim).token
          (strtok (done ++ rest ++ [NUL]) done.length delim).save
          ⟨(strtok (done ++ rest ++ [NUL]) done.length delim).mem, ptrs, bufsize⟩
        = match run_buf grow (maximal_runs delim rest).length ptrs.length bufsize with
          | some b => .ok ⟨done ++ (layout segs ++ trailing),
              ptrs ++ layout_ptrs done.length segs, b⟩
          | none => .undefined := by
  intro n
  induction n with
  | zero =>
    intro rest hlen _ done ptrs bufsize fuel _
    have hr : rest = [] := List.length_eq_zero.mp (Nat.le_zero.mp hlen)
    subst hr
    refine ⟨[], [NUL], by simp [maximal_runs_nil], by simp, ?_⟩
    have := strtok_none delim done [] (by simp)
    simp only [List.append_nil] at this
    rw [List.append_nil, this, tok_loop_none, maximal_runs_nil]
    simp [run_buf, layout, layout_ptrs]
  | succ n ih =>
    intro rest hlen hnul done ptrs bufsize fuel hfuel
    rcases token_shape delim rest with hall | ⟨sk, tok, rfl, hsk, hne, htok⟩ |
      ⟨sk, tok, d, r, rfl, hsk, hne, htok, hd⟩
    · refine ⟨[], rest ++ [NUL], by simp [maximal_runs_all_delim delim rest hall], by simp, ?_⟩
      rw [strtok_none delim done rest (fun c hc => ⟨hall c hc, hnul c hc⟩), tok_loop_none,
        maximal_runs_all_delim delim rest hall]
      simp [run_buf, layout, layout_ptrs]
    · have hsk1 : ∀ c ∈ sk, c ∈ delim ∧ c ≠ NUL :=
        fun c hc => ⟨hsk c hc, hnul c (by simp [hc])⟩
      have htok1 : ∀ c ∈ tok, c ∉ delim ∧ c ≠ NUL :=
        fun c hc => ⟨htok c hc, hnul c (by simp [hc])⟩
      have hruns : maximal_runs delim (sk ++ tok) = [tok] := by
        rw [maximal_runs_skip delim sk tok hsk, maximal_runs_last delim tok hne htok]
      refine ⟨[(sk, tok)], [], by simp [hruns], ?_, ?_⟩
      · intro g hg c hc
        rw [List.mem_singleton] at hg
        subst hg
        exact (htok1 c hc).2
      · have h1 := strtok_last delim done sk tok hsk1 htok1 hne
        have e1 : done ++ (sk ++ tok) ++ [NUL] = done ++ sk ++ tok ++ [NUL] := by simp
        rw [e1, h1, hruns]
        obtain ⟨f, rfl⟩ : ∃ f, fuel = f + 1 := ⟨fuel - 1, by omega⟩
        rw [tok_loop_some]
        have h2 := strtok_none delim (done ++ sk ++ tok) [] (by simp)
        simp only [List.append_nil] at h2
        dsimp only
        rw [h2, tok_loop_none]
        simp only [run_buf, List.length_singleton, List.length_append, layout, layout_ptrs]
        by_cases hb : ptrs.length < bufsize <;> simp [hb]
    · have hsk1 : ∀ c ∈ sk, c ∈ delim ∧ c ≠ NUL :=
        fun c hc => ⟨hsk c hc, hnul c (by simp [hc])⟩
      have htok1 : ∀ c ∈ tok, c ∉ delim ∧ c ≠ NUL :=
        fun c hc => ⟨htok c hc, hnul c (by simp [hc])⟩
      have hd1 : d ∈ delim ∧ d ≠ NUL := ⟨hd, hnul d (by simp)⟩
      have hr : ∀ c ∈ r, c ≠ NUL := fun c hc => hnul c (by simp [hc])
      have hruns : maximal_runs delim (sk ++ tok ++ d :: r) = tok :: maximal_runs delim r := by
        rw [List.append_assoc, maximal_runs_skip delim sk _ hsk,
          maximal_runs_mid delim tok d r hne htok hd]
      have hlen1 : (sk ++ tok ++ d :: r).length = sk.length + tok.length + r.length + 1 := by
        simp; omega
      obtain ⟨f, rfl⟩ : ∃ f, fuel = f + 1 := ⟨fuel - 1, by omega⟩
      obtain ⟨segs1, trailing1, hm1, hn1, hrun1⟩ :=
        ih r (by omega) hr (done ++ sk ++ tok ++ [NUL]) (ptrs ++ [(done ++ sk).length])
          (if grow && decide ((ptrs ++ [(done ++ sk).length]).length ≥ bufsize)
            then bufsize + BUFSIZE else bufsize) f (by omega)
      refine ⟨(sk, tok) :: segs1, trailing1, by rw [hruns, List.map_cons, hm1], ?_, ?_⟩
      · intro g hg c hc
        rcases List.mem_cons.mp hg with rfl | hg
        · exact (htok1 c hc).2
        · exact hn1 g hg c hc
      · have h1 := strtok_mid delim done sk tok d (r ++ [NUL]) hsk1 htok1 hne hd1
        have e1 : done ++ (sk ++ tok ++ d :: r) ++ [NUL]
            = done ++ sk ++ tok ++ d :: (r ++ [NUL]) := by simp
        have e2 : done ++ sk ++ tok ++ NUL :: (r ++ [NUL])
            = done ++ sk ++ tok ++ [NUL] ++ r ++ [NUL] := by simp
        have e3 : (done ++ sk ++ tok ++ [NUL]).length
            = done.length + sk.length + tok.length + 1 := by simp; omega
        rw [e1, h1, hruns, tok_loop_some]
        dsimp only
        rw [e2]
        simp only [List.length_cons, run_buf]
        by_cases hb : ptrs.length < bufsize
        · simp only [hb, if_true]
          rw [hrun1]
          simp only [List.length_append, List.length_singleton]
          cases run_buf grow (maximal_runs delim r).length (ptrs.length + 1)
            (if grow && decide (ptrs.length + 1 ≥ bufsize) then bufsize + BUFSIZE
              else bufsize) with
          | none => rfl
          | some b =>
            simp only [layout, layout_ptrs, e3, List.length_append]
            simp
        · simp [hb]

/-- Writing with `strcpy` a string no longer than the token over that token: the bytes before
the token stay, the token reads as the new string, and the bytes after the old terminator
stay. -/
theorem strcpy_at_token (pre tok x r : List Char) (hr : r.length ≤ tok.length) :
    strcpy_at (pre ++ (tok ++ NUL :: x)) pre.length r
      = some (pre ++ (r ++ NUL :: ((tok ++ [NUL]).drop (r.length + 1) ++ x))) ∧
    (r ++ NUL :: ((tok ++ [NUL]).drop (r.length + 1))).length = tok.length + 1 := by
  have hlen : pre.length + r.length + 1 ≤ (pre ++ (tok ++ NUL :: x)).length := by
    simp only [List.length_append, List.length_cons]
    omega
  have htake : (pre ++ (tok ++ NUL :: x)).take pre.length = pre := List.take_left _ _
  have hdrop : (pre ++ (tok ++ NUL :: x)).drop (pre.length + r.length + 1)
      = (tok ++ [NUL]).drop (r.length + 1) ++ x := by
    rw [Nat.add_assoc, List.drop_append]
    have e : tok ++ NUL :: x = (tok ++ [NUL]) ++ x := by simp
    rw [e, List.drop_append_of_le_length (by simp; omega)]
  constructor
  · unfold strcpy_at
    rw [if_pos hlen, htake, hdrop]
    simp
  · simp only [List.length_append, List.length_cons, List.length_drop, List.length_nil]
    omega

/-- The unescaping loop on a laid out buffer, when no answer of `unescape` is longer than the
token it is given: the buffer keeps its length and what was before the tokens, and the
pointers read as the answers, or as the tokens where the answer was `NULL`. -/
theorem unescape_loop_layout (unescape : CStr → Option CStr) (trailing : List Char) :
    ∀ (segs : List (List Char × CStr)) (pre : List Char),
      (∀ g ∈ segs, ∀ c ∈ g.2, c ≠ NUL) →
      (∀ g ∈ segs, ∀ r, unescape g.2 = some r → r.length ≤ g.2.length ∧ ∀ c ∈ r, c ≠ NUL) →
      ∃ tail,
        unescape_loop unescape (layout_ptrs pre.length segs) (pre ++ (layout segs ++ trailing))
          = some (pre ++ tail) ∧
        (layout_ptrs pre.length segs).map (cstrAt (pre ++ tail))
          = segs.map (fun g => (unescape g.2).getD g.2) := by
  intro segs
  induction segs with
  | nil =>
    intro pre _ _
    exact ⟨trailing, by simp [layout, layout_ptrs, unescape_loop], by simp [layout_ptrs]⟩
  | cons g segs ih =>
    intro pre hnul hdec
    obtain ⟨gap, tok⟩ := g
    have htok : ∀ c ∈ tok, c ≠ NUL := hnul (gap, tok) (List.mem_cons_self _ _)
    have hnul1 : ∀ g ∈ segs, ∀ c ∈ g.2, c ≠ NUL :=
      fun g hg => hnul g (List.mem_cons_of_mem _ hg)
    have hdec1 : ∀ g ∈ segs, ∀ r, unescape g.2 = some r →
        r.length ≤ g.2.length ∧ ∀ c ∈ r, c ≠ NUL :=
      fun g hg => hdec g (List.mem_cons_of_mem _ hg)
    have hmem : pre ++ (layout ((gap, tok) :: segs) ++ trailing)
        = (pre ++ gap) ++ (tok ++ NUL :: (layout segs ++ trailing)) := by
      simp [layout]
    have hp : pre.length + gap.length = (pre ++ gap).length := by simp
    have hread : cstrAt ((pre ++ gap) ++ (tok ++ NUL :: (layout segs ++ trailing)))
        (pre ++ gap).length = tok := by
      have := cstrAt_append (pre ++ gap) tok (layout segs ++ trailing) htok
      rwa [List.append_assoc] at this
    simp only [layout_ptrs, unescape_loop, List.map_cons]
    rw [hmem, hp, hread]
    cases hu : unescape tok with
    | none =>
      dsimp only
      have hpl : (pre ++ gap).length + tok.length + 1 = (pre ++ gap ++ tok ++ [NUL]).length := by
        simp only [List.length_append, List.length_singleton]
      obtain ⟨tail1, hloop, hmap⟩ := ih (pre ++ gap ++ tok ++ [NUL]) hnul1 hdec1
      have e1 : (pre ++ gap) ++ (tok ++ NUL :: (layout segs ++ trailing))
          = (pre ++ gap ++ tok ++ [NUL]) ++ (layout segs ++ trailing) := by simp
      have e2 : (pre ++ gap ++ tok ++ [NUL]) ++ tail1 = pre ++ (gap ++ tok ++ NUL :: tail1) := by
        simp
      refine ⟨gap ++ tok ++ NUL :: tail1, ?_, ?_⟩
      · rw [hpl, e1, hloop, e2]
      · rw [hpl, ← e2, hmap]
        refine congrArg₂ List.cons ?_ rfl
        have := cstrAt_append (pre ++ gap) tok tail1 htok
        simpa using this
    | some r =>
      dsimp only
      obtain ⟨hrl, hrn⟩ := hdec (gap, tok) (List.mem_cons_self _ _) r hu
      obtain ⟨hcpy, hjl⟩ := strcpy_at_token (pre ++ gap) tok (layout segs ++ trailing) r hrl
      rw [hcpy]
      dsimp only
      have hpl : (pre ++ gap).length + tok.length + 1
          = (pre ++ gap ++ (r ++ NUL :: ((tok ++ [NUL]).drop (r.length + 1)))).length := by
        have := hjl
        simp only [List.length_append, List.length_cons] at this ⊢
        omega
      obtain ⟨tail1, hloop, hmap⟩ :=
        ih (pre ++ gap ++ (r ++ NUL :: ((tok ++ [NUL]).drop (r.length + 1)))) hnul1 hdec1
      have e1 : (pre ++ gap) ++ (r ++ NUL :: ((tok ++ [NUL]).drop (r.length + 1)
            ++ (layout segs ++ trailing)))
          = (pre ++ gap ++ (r ++ NUL :: ((tok ++ [NUL]).drop (r.length + 1))))
            ++ (layout segs ++ trailing) := by simp
      have e2 : (pre ++ gap ++ (r ++ NUL :: ((tok ++ [NUL]).drop (r.length + 1)))) ++ tail1
          = pre ++ (gap ++ r ++ NUL :: ((tok ++ [NUL]).drop (r.length + 1) ++ tail1)) := by
        simp
      refine ⟨gap ++ r ++ NUL :: ((tok ++ [NUL]).drop (r.length + 1) ++ tail1), ?_, ?_⟩
      · rw [hpl, e1, hloop, e2]
      · rw [hpl, ← e2, hmap]
        refine congrArg₂ List.cons ?_ rfl
        have := cstrAt_append (pre ++ gap) r ((tok ++ [NUL]).drop (r.length + 1) ++ tail1) hrn
        simpa using this

theorem layout_ptrs_length : ∀ (segs : List (List Char × CStr)) (base : Nat),
    (layout_ptrs base segs).length = segs.length := by
  intro segs
  induction segs with
  | nil => intro base; rfl
  | cons g segs ih =>
    intro base
    obtain ⟨gap, tok⟩ := g
    simp [layout_ptrs, ih]

/-- The tokenizing phase of `split_line`, with the shape of the buffer it leaves. -/
theorem tokenize_layout (s : CStr) (hnul : ∀ c ∈ s, c ≠ NUL) :
    ∃ (segs : List (List Char × CStr)) (trailing : List Char) (b : Nat),
      segs.map (fun g => g.2) = maximal_runs ARG_DELIM s ∧
      (∀ g ∈ segs, ∀ c ∈ g.2, c ≠ NUL) ∧
      tokenize ARG_DELIM true (cmem s)
        = .ok ⟨layout segs ++ trailing, layout_ptrs 0 segs, b⟩ := by
  obtain ⟨segs, trailing, hmap, hn, hrun⟩ :=
    tok_loop_layout ARG_DELIM true s.length s (Nat.le_refl _) hnul [] [] BUFSIZE (cmem s).length
      (by simp [cmem])
  obtain ⟨b, hb, hlt⟩ := run_buf_grow (maximal_runs ARG_DELIM s).length 0 BUFSIZE (by decide)
  have hl : (layout_ptrs 0 segs).length = (maximal_runs ARG_DELIM s).length := by
    rw [layout_ptrs_length, ← hmap, List.length_map]
  refine ⟨segs, trailing, b, hmap, hn, ?_⟩
  simp only [List.nil_append, List.length_nil] at hrun
  unfold tokenize
  simp only [cmem] at hrun ⊢
  rw [hrun, hb]
  dsimp only
  rw [if_pos (by omega)]

/-- C16, as stated, fails for a decoder whose answer is longer than the token: on the line
`echo a bc` with `a` decoded to `xyz`, `strcpy` writes `xyz` and its terminator over `a`, its
terminator and the start of `bc`, and the third pointer then reads `z`, not `bc`. -/
theorem split_line_echo_overwrites :
    split_line (fun t => if t = ['a'] then some ['x', 'y', 'z'] else none)
        ['e', 'c', 'h', 'o', ' ', 'a', ' ', 'b', 'c', '\n']
      = .ok [['e', 'c', 'h', 'o'], ['x', 'y', 'z'], ['z']] ∧
    maximal_runs ARG_DELIM ['e', 'c', 'h', 'o', ' ', 'a', ' ', 'b', 'c', '\n']
      = [['e', 'c', 'h', 'o'], ['a'], ['b', 'c']] ∧
    (fun t => if t = ['a'] then some ['x', 'y', 'z'] else none) ['b', 'c']
      = (none : Option CStr) := by
  refine ⟨by decide, by decide, by decide⟩

/-- C16, amended: on a line (a C string) with at least one token: when the first token is
`echo` and no answer of the decoder for an argument is longer than that argument (the answers
being C strings), `split_line` returns `echo` unchanged and, for every later token, the answer
of the decoder when there is one and the token itself when there is none; when the first token
is not `echo`, it returns every token unchanged, whatever the decoder is. -/
theorem split_line_echo (unescape : CStr → Option CStr) (line : CStr)
    (hnul : ∀ c ∈ line, c ≠ NUL) (hne : maximal_runs ARG_DELIM line ≠ [])
    (hdec : (maximal_runs ARG_DELIM line).head? = some ECHO →
      ∀ t ∈ (maximal_runs ARG_DELIM line).tail, ∀ r, unescape t = some r →
        r.length ≤ t.length ∧ ∀ c ∈ r, c ≠ NUL) :
    split_line unescape line =
      .ok (if (maximal_runs ARG_DELIM line).head? = some ECHO then
          ECHO :: (maximal_runs ARG_DELIM line).tail.map (fun t => (unescape t).getD t)
        else maximal_runs ARG_DELIM line) := by
  by_cases hE : (maximal_runs ARG_DELIM line).head? = some ECHO
  · rw [if_pos hE]
    obtain ⟨segs, trailing, b, hmap, hn, htk⟩ := tokenize_layout line hnul
    cases segs with
    | nil => exact absurd (by simpa using hmap.symm) hne
    | cons g segs1 =>
      obtain ⟨gap0, tok0⟩ := g
      rw [← hmap] at hE hdec ⊢
      simp only [List.map_cons, List.head?_cons, Option.some.injEq, List.tail_cons] at hE hdec ⊢
      subst hE
      have hn0 : ∀ c ∈ ECHO, c ≠ NUL := hn (gap0, ECHO) (List.mem_cons_self _ _)
      have hn1 : ∀ g ∈ segs1, ∀ c ∈ g.2, c ≠ NUL :=
        fun g hg => hn g (List.mem_cons_of_mem _ hg)
      have hd1 : ∀ g ∈ segs1, ∀ r, unescape g.2 = some r →
          r.length ≤ g.2.length ∧ ∀ c ∈ r, c ≠ NUL := by
        intro g hg r hr
        exact hdec rfl g.2 (List.mem_map.mpr ⟨g, hg, rfl⟩) r hr
      obtain ⟨tail, hloop, hread⟩ :=
        unescape_loop_layout unescape trailing segs1 (gap0 ++ ECHO ++ [NUL]) hn1 hd1
      have hmem : layout ((gap0, ECHO) :: segs1) ++ trailing
          = (gap0 ++ ECHO ++ [NUL]) ++ (layout segs1 ++ trailing) := by
        simp [layout]
      have hbase : 0 + gap0.length + ECHO.length + 1 = (gap0 ++ ECHO ++ [NUL]).length := by
        simp only [List.length_append, List.length_singleton]
        omega
      have hr0 : cstrAt ((gap0 ++ ECHO ++ [NUL]) ++ (layout segs1 ++ trailing)) (0 + gap0.length)
          = ECHO := by
        have := cstrAt_append gap0 ECHO (layout segs1 ++ trailing) hn0
        simpa using this
      have hr0t : cstrAt ((gap0 ++ ECHO ++ [NUL]) ++ tail) (0 + gap0.length) = ECHO := by
        have := cstrAt_append gap0 ECHO tail hn0
        simpa using this
      unfold split_line
      rw [htk]
      simp only [layout_ptrs]
      rw [hmem, hbase, hr0, if_pos (by simp), hloop]
      simp only [List.map_cons, hr0t, hread, List.map_map]
      rfl
  · rw [if_neg hE]
    exact split_line_runs unescape line hnul hne (Or.inl hE)

/-- C16, amended, at the line `echo a\tb c`, the decoder turning `a\tb` (backslash, t) into
`a`, tab, `b` and leaving `c` alone. -/
theorem split_line_echo_witness :
    (∀ c ∈ ['e', 'c', 'h', 'o', ' ', 'a', '\\', 't', 'b', ' ', 'c', '\n'], c ≠ NUL) ∧
    maximal_runs ARG_DELIM ['e', 'c', 'h', 'o', ' ', 'a', '\\', 't', 'b', ' ', 'c', '\n']
      = [['e', 'c', 'h', 'o'], ['a', '\\', 't', 'b'], ['c']] ∧
    split_line (fun t => if t = ['a', '\\', 't', 'b'] then some ['a', '\t', 'b'] else none)
        ['e', 'c', 'h', 'o', ' ', 'a', '\\', 't', 'b', ' ', 'c', '\n']
      = .ok (if (maximal_runs ARG_DELIM
            ['e', 'c', 'h', 'o', ' ', 'a', '\\', 't', 'b', ' ', 'c', '\n']).head? = some ECHO then
          ECHO :: (maximal_runs ARG_DELIM
            ['e', 'c', 'h', 'o', ' ', 'a', '\\', 't', 'b', ' ', 'c', '\n']).tail.map
              (fun t => ((fun t => if t = ['a', '\\', 't', 'b'] then some ['a', '\t', 'b']
                else none) t).getD t)
        else maximal_runs ARG_DELIM
          ['e', 'c', 'h', 'o', ' ', 'a', '\\', 't', 'b', ' ', 'c', '\n']) ∧
    split_line (fun t => if t = ['a', '\\', 't', 'b'] then some ['a', '\t', 'b'] else none)
        ['e', 'c', 'h', 'o', ' ', 'a', '\\', 't', 'b', ' ', 'c', '\n']
      = .ok [['e', 'c', 'h', 'o'], ['a', '\t', 'b'], ['c']] :=
  ⟨by decide, by decide,
    split_line_echo (fun t => if t = ['a', '\\', 't', 'b'] then some ['a', '\t', 'b'] else none)
      ['e', 'c', 'h', 'o', ' ', 'a', '\\', 't', 'b', ' ', 'c', '\n'] (by decide) (by decide)
      (by
        intro _ t ht r hr
        have ht1 : t = ['a', '\\', 't', 'b'] ∨ t = ['c'] := by
          have : maximal_runs ARG_DELIM
              ['e', 'c', 'h', 'o', ' ', 'a', '\\', 't', 'b', ' ', 'c', '\n']
              = [['e', 'c', 'h', 'o'], ['a', '\\', 't', 'b'], ['c']] := by decide
          rw [this] at ht
          simpa using ht
        rcases ht1 with rfl | rfl
        · have : r = ['a', '\t', 'b'] := by simpa using hr.symm
          subst this
          decide
        · simp at hr),
    by decide⟩

end SimpleShell
